import Mathlib

/-!
Verification of the PyLMI-SDP symbolic-to-numeric extraction pipeline.

This file gives a shallow embedding of the core of the `lmi_sdp` package
(`lm.py`, `sdp.py`, `lmi.py`) and proves/refutes the frozen claims about it.

Modelling conventions:

* Symbolic scalar expressions (sympy expression trees over rational constants,
  symbols, `+`, `*` and natural powers) are embedded as the inductive type
  `Expr`.  Numeric values are embedded as exact rationals `ℚ` (the Python code
  converts the extracted sympy rationals to machine floats at the boundary;
  the mathematical content of the extraction is exact and is modelled as such).
* sympy automatically collects like terms when an `Add` is constructed, and
  `expr.as_coefficients_dict()` maps each monomial of a (collected) sum to its
  rational coefficient.  For the purely polynomial grammar of `Expr`, the
  two-stage check of `lin_expr_coeffs` (raw coefficient dictionary first, the
  dictionary of `expr.expand()` second) is equivalent to a single check of
  the fully expanded and collected normal form: if the raw dictionary already
  has only linear keys, expansion does not change any coefficient.  The
  embedding therefore computes the expanded normal form (`expandPoly`, an
  association list from monomials to nonzero rational coefficients) and
  performs the linearity check of `lin_expr_coeffs` on it.  The `Dummy()`
  nonce of the source (a workaround so that `as_coefficients_dict` treats a
  single-term expression as a sum) is a no-op at this level: the normal form
  is already total.
* Symbolic and numeric matrices are embedded as lists of row lists.
* Python exceptions are embedded as `Except String`, the message carrying the
  exception class and the formatted text of the raise site (apostrophes of
  the original messages are dropped).
-/


/-- Decidable equality for `Except`, used to evaluate the embedded
functions on concrete inputs. -/
instance {ε α : Type} [DecidableEq ε] [DecidableEq α] :
    DecidableEq (Except ε α) := fun a b =>
  match a, b with
  | .ok x, .ok y =>
    if h : x = y then .isTrue (by rw [h]) else .isFalse (by simp [h])
  | .ok _, .error _ => .isFalse (by simp)
  | .error _, .ok _ => .isFalse (by simp)
  | .error e, .error e' =>
    if h : e = e' then .isTrue (by rw [h]) else .isFalse (by simp [h])

/-- Symbolic scalar expression tree: rational constants, named symbols,
sums, products and natural powers (the grammar produced and consumed by the
package: affine builds, products, powers). -/
inductive Expr where
  | const (q : ℚ)
  | var (s : String)
  | add (a b : Expr)
  | mul (a b : Expr)
  | pow (b : Expr) (n : Nat)
deriving DecidableEq

instance : Zero Expr := ⟨Expr.const 0⟩

/-- A monomial: the multiset of symbol names it multiplies (with
multiplicity, so `x*x` is `{x, x}`). The empty multiset is the constant
monomial `1`. -/
abbrev Mono := Multiset String

/-- Expanded polynomial normal form: an association list from monomials to
rational coefficients (the embedding of sympy`s `as_coefficients_dict` of a
fully expanded expression).  Well-formed values have pairwise distinct keys
and no zero coefficients. -/
abbrev QPoly := List (Mono × ℚ)

/-- Rational addition, spelled through `mkRat` so that terms built from
literals reduce inside the kernel (the library addition on `ℚ` is marked
irreducible); proved equal to `+` in `qadd_eq`. -/
def qadd (a b : ℚ) : ℚ := mkRat (a.num * b.den + b.num * a.den) (a.den * b.den)

/-- Rational multiplication through `mkRat`; proved equal to `*` in
`qmul_eq`. -/
def qmul (a b : ℚ) : ℚ := mkRat (a.num * b.num) (a.den * b.den)

/-- Add `c` to the coefficient of monomial `m`, inserting the key if absent
(the collection of like terms that sympy`s `Add` performs on construction). -/
def insertMono (m : Mono) (c : ℚ) : QPoly → QPoly
  | [] => [(m, c)]
  | (m', c') :: rest =>
    if m = m' then (m', qadd c' c) :: rest else (m', c') :: insertMono m c rest

/-- Sum of two coefficient dictionaries. -/
def QPoly.addP (p q : QPoly) : QPoly :=
  q.foldl (fun acc mc => insertMono mc.1 mc.2 acc) p

/-- Drop zero coefficients (sympy never keeps a collected zero term). -/
def QPoly.stripZ (p : QPoly) : QPoly := p.filter (fun mc => mc.2 ≠ 0)

/-- Product of two coefficient dictionaries (full distribution, the
embedding of sympy`s `expand`). -/
def QPoly.mulP (p q : QPoly) : QPoly :=
  p.foldl (fun acc mc =>
    QPoly.addP acc (q.map (fun mc' => (mc.1 + mc'.1, qmul mc.2 mc'.2)))) []

/-- Natural power of a coefficient dictionary. -/
def QPoly.powP (p : QPoly) : Nat → QPoly
  | 0 => [(0, 1)]
  | n + 1 => QPoly.mulP p (QPoly.powP p n)

/-- Expanded, collected normal form of an expression: the embedding of the
coefficient dictionary of `expr.expand()` in `lin_expr_coeffs` (keys with a
zero collected coefficient do not survive sympy`s automatic evaluation and
are stripped at every node). -/
def expandPoly : Expr → QPoly
  | .const q => QPoly.stripZ [(0, q)]
  | .var s => [({s}, 1)]
  | .add a b => QPoly.stripZ (QPoly.addP (expandPoly a) (expandPoly b))
  | .mul a b => QPoly.stripZ (QPoly.mulP (expandPoly a) (expandPoly b))
  | .pow b n => QPoly.stripZ (QPoly.powP (expandPoly b) n)

/-- Coefficient lookup with default 0 (`coeff_dict.get(key, 0)`). -/
def QPoly.coeff (p : QPoly) (m : Mono) : ℚ :=
  (((p.find? (fun mc => decide (mc.1 = m))).map Prod.snd)).getD 0

/-- Error value of `NonLinearExpressionError` as raised by
`lin_expr_coeffs` (a fixed message that does not mention the offending
expression). -/
def nonLinearExprMsg : String :=
  "NonLinearExpressionError: linear_expr must be linear w.r.t. vars"

/-- Is a monomial admissible for a linear expression over `vars`
(membership in the `ok_set` of the source: the constant key `S.One` or one
of the vars; the `Dummy()` key of the source is an artifact of the
nonce injection and has no counterpart here)? -/
def okKey (vars : List String) (m : Mono) : Bool :=
  decide (m = 0) || vars.any (fun x => decide (m = ({x} : Multiset String)))

/-- Embedding of `lin_expr_coeffs(linear_expr, vars)` from
`lmi_sdp/lm.py`: check that every monomial of the expanded coefficient
dictionary is a plain variable or the constant key, then read off the
per-variable coefficients and the constant term. -/
def lin_expr_coeffs (linear_expr : Expr) (vars : List String) :
    Except String (List ℚ × ℚ) :=
  let coeff_dict := expandPoly linear_expr
  if coeff_dict.all (fun mc => okKey vars mc.1) then
    .ok (vars.map (fun x => coeff_dict.coeff {x}), coeff_dict.coeff 0)
  else
    .error nonLinearExprMsg

/-- A matrix is a list of row lists (the embedding of sympy / numpy
matrices; shape invariants are carried as hypotheses where needed). -/
abbrev Mat (α : Type) := List (List α)

/-- Entry access `matrix[i, j]`, with the structural zero as the
out-of-range default (the algorithms only access entries in range). -/
def Mat.entry {α : Type} [Zero α] (M : Mat α) (i j : Nat) : α :=
  (M.getD i []).getD j 0

/-- Number of columns, read off the first row (`matrix.shape[1]`). -/
def Mat.cols {α : Type} (M : Mat α) : Nat := (M.headD []).length

/-- A well-shaped matrix: every row has length `cols`. -/
def Mat.Rect {α : Type} (M : Mat α) : Prop :=
  ∀ row ∈ M, row.length = Mat.cols M

/-- A well-shaped square matrix of size `n`: `n` rows, every row of
length `n`. -/
abbrev Mat.SquareWF {α : Type} (M : Mat α) : Prop :=
  ∀ row ∈ M, row.length = M.length

/-- The square sub-matrix `matrix[a:b, a:b]`. -/
def Mat.sub {α : Type} (M : Mat α) (a b : Nat) : Mat α :=
  ((M.drop a).take (b - a)).map (fun row => (row.drop a).take (b - a))

/-- Error value of the `NonSquareMatrixError` raised by
`get_diag_block_idxs`. -/
def nonSquareMsg : String := "NonSquareMatrixError: matrix must be square"

/-- The inner `for l in range(n-1, c, -1)` scan of `get_diag_block_idxs`:
the first `l` counting down from `n-1` to `c+1` with a structural nonzero
at `(l, c)` or `(c, l)`, if any. -/
def scanCol {α : Type} [Zero α] [DecidableEq α] (M : Mat α) (n c : Nat) :
    Option Nat :=
  (List.range' (c + 1) (n - 1 - c)).reverse.find?
    (fun l => decide (Mat.entry M l c ≠ 0) || decide (Mat.entry M c l ≠ 0))

/-- The `while c < n-1` loop of `get_diag_block_idxs`: `b` is the list of
already recorded boundaries, `c` the cursor.  A pass either jumps the
cursor to the lowest row `l` with a nonzero in column/row `c` (no boundary
recorded), or, when the whole tail of column/row `c` is structurally zero,
records the boundary `c+1` and advances to it.  The cursor strictly
advances on every pass (`scanCol_mem`), so `n - 1 - c` passes always
suffice; the loop is embedded with that structural bound as fuel, and
`blockIdxsAux_fuel` below proves the bound is never hit (the loop
terminates). -/
def blockIdxsAux {α : Type} [Zero α] [DecidableEq α] (M : Mat α) (n : Nat) :
    Nat → Nat → List Nat → List Nat
  | 0, _, b => b
  | fuel + 1, c, b =>
    if c < n - 1 then
      match scanCol M n c with
      | some l => blockIdxsAux M n fuel l b
      | none => blockIdxsAux M n fuel (c + 1) (b ++ [c + 1])
    else b

/-- Embedding of `get_diag_block_idxs(matrix)` from `lmi_sdp/lm.py`. -/
def get_diag_block_idxs {α : Type} [Zero α] [DecidableEq α] (M : Mat α) :
    Except String (List Nat) :=
  if M.length = Mat.cols M then
    .ok (blockIdxsAux M M.length M.length 0 [] ++ [M.length])
  else
    .error nonSquareMsg

/-- Embedding of `split_by_diag_blocks(matrix)` from `lmi_sdp/lm.py`. -/
def split_by_diag_blocks {α : Type} [Zero α] [DecidableEq α] (M : Mat α) :
    Except String (List (Mat α)) := do
  let idxs ← get_diag_block_idxs M
  return (List.zip (0 :: idxs.dropLast) idxs).map (fun ab => M.sub ab.1 ab.2)

/-- Map a fallible function over a list, stopping at the first failure:
the embedding of a Python loop or comprehension whose body may raise. -/
def mapE {A B : Type} (f : A → Except String B) : List A → Except String (List B)
  | [] => .ok []
  | a :: as => do
    let b ← f a
    let bs ← mapE f as
    return b :: bs

/-- Error value of the `NonLinearMatrixError` raised by
`lm_sym_to_coeffs` (again a fixed message naming no particular cell). -/
def nonLinearMatMsg : String :=
  "NonLinearMatrixError: linear_matrix must be composed of linear expressions w.r.t. vars"

/-- Embedding of `lm_sym_to_coeffs(linear_matrix, vars)` from
`lmi_sdp/lm.py`: run `lin_expr_coeffs` on every cell in row-major order,
wrapping the first failure into the matrix-level error, and assemble the
per-variable coefficient matrices and the constant matrix (the source
writes into pre-allocated `numpy` zero matrices; the assembly here gathers
the same values positionally). -/
def lm_sym_to_coeffs (linear_matrix : Mat Expr) (vars : List String) :
    Except String (List (Mat ℚ) × Mat ℚ) := do
  let cells ← mapE (fun row => mapE (fun e =>
      match lin_expr_coeffs e vars with
      | .ok r => .ok r
      | .error _ => .error nonLinearMatMsg) row) linear_matrix
  return ((List.range vars.length).map
            (fun i => cells.map (fun r => r.map (fun cell => cell.1.getD i 0))),
          cells.map (fun r => r.map Prod.snd))

/-- One step of `lm_coeffs_to_sym`: the entrywise sympy matrix addition
`lm + x*ImmutableMatrix(C)` (each cell becomes `cell + x*c`). -/
def lmAddTerm (x : String) (lm : Mat Expr) (C : Mat ℚ) : Mat Expr :=
  List.zipWith (fun lrow crow =>
    List.zipWith (fun l c =>
      Expr.add l (Expr.mul (.var x) (.const c))) lrow crow) lm C

/-- Embedding of `lm_coeffs_to_sym(coeffs, vars)` from `lmi_sdp/lm.py`:
start from the constant matrix (as constant expressions) and add
`x * coeff_matrix` for each variable in order.  sympy`s `+` on matrices is
entrywise; entry shapes are assumed compatible (hypotheses of the
round-trip theorem). -/
def lm_coeffs_to_sym (coeffs : List (Mat ℚ) × Mat ℚ) (vars : List String) :
    Mat Expr :=
  (List.zip vars coeffs.1).foldl
    (fun lm xC => lmAddTerm xC.1 lm xC.2)
    (coeffs.2.map (fun row => row.map Expr.const))

/-- The four inequality kinds of `lmi.py` (`LMI_PSD`, `LMI_PD`, `LMI_NSD`,
`LMI_ND`). -/
inductive LMIKind where
  | psd | pd | nsd | nd
deriving DecidableEq

/-- An inequality object: kind plus left- and right-hand symbolic
matrices (`LMI_*(lhs, rhs)`; a scalar `0` right-hand side is embedded as
the zero matrix of the shape of `lhs`). -/
structure LMIRel where
  kind : LMIKind
  lhs : Mat Expr
  rhs : Mat Expr
deriving DecidableEq

/-- Subtraction of symbolic matrix entries.  sympy evaluates `e - 0` to
`e`; that collapse is mirrored for the (ubiquitous) literal-zero case so
that structural-zero tests behave as in the source. -/
def Expr.subE (a b : Expr) : Expr :=
  if b = .const 0 then a else .add a (.mul (.const (mkRat (-1) 1)) b)

/-- Modelled from the spec: `canonical()` and the `gts` accessor of the
inequality classes are inherited from the host symbolic-algebra engine
(they are not defined in the repository source); per the spec,
canonicalization rewrites the relation as `(left - right) ∘ 0`, moving
everything to the greater-than side, and `gts` exposes the single matrix
of that side, i.e. `lhs - rhs` for PSD/PD and `rhs - lhs` for NSD/ND. -/
def LMIRel.canonicalGts (r : LMIRel) : Mat Expr :=
  match r.kind with
  | .psd | .pd => List.zipWith (List.zipWith Expr.subE) r.lhs r.rhs
  | .nsd | .nd => List.zipWith (List.zipWith Expr.subE) r.rhs r.lhs

/-- The zero matrix of the shape of `M` (the sympified scalar `0`
right-hand side of `LMI(m)`, broadcast to the shape of the left side). -/
def zeroMatLike (M : Mat Expr) : Mat Expr :=
  M.map (fun row => row.map (fun _ => Expr.const 0))

/-- One element of the `lmi` argument of `prepare_lmi_for_sdp`: an
inequality object or a bare matrix. -/
inductive LMIInput where
  | ineq (r : LMIRel)
  | mat (m : Mat Expr)
deriving DecidableEq

/-- The `lmi` argument itself: a single element or a list of elements
(the `isinstance` dispatch at the head of `prepare_lmi_for_sdp`). -/
inductive PrepareArg where
  | single (x : LMIInput)
  | list (xs : List LMIInput)
deriving DecidableEq

/-- Canonical greater-than side of one input element: a bare matrix `m`
is first wrapped as `LMI(m)`, i.e. `LMI_PSD(m, 0)`. -/
def LMIInput.gts : LMIInput → Mat Expr
  | .ineq r => r.canonicalGts
  | .mat m => LMIRel.canonicalGts ⟨.psd, m, zeroMatLike m⟩

/-- Embedding of `prepare_lmi_for_sdp(lmi, vars, optimize_by_diag_blocks)`
from `lmi_sdp/sdp.py`. -/
def prepare_lmi_for_sdp (lmi : PrepareArg) (vars : List String)
    (optimize_by_diag_blocks : Bool := false) :
    Except String (List (List (Mat ℚ) × Mat ℚ)) := do
  let lmis := match lmi with
    | .single x => [x]
    | .list xs => xs
  let slms := lmis.map LMIInput.gts
  let slms ←
    if optimize_by_diag_blocks then do
      let bss ← mapE split_by_diag_blocks slms
      pure bss.flatten
    else
      pure slms
  mapE (fun slm => lm_sym_to_coeffs slm vars) slms

/-- Python `str.lower()` (ASCII, which covers the direction strings). -/
def pyLower (s : String) : String := ⟨s.data.map Char.toLower⟩

/-- Error value of the `ValueError` raised by
`prepare_objective_for_sdp` on an unknown direction (a fixed message that
does not include the rejected value). -/
def invalidObjectiveTypeMsg : String :=
  "ValueError: objective_type must be maximize or minimize"

/-- Embedding of `prepare_objective_for_sdp(objective_func, vars,
objective_type)` from `lmi_sdp/sdp.py`: lower-case the direction, negate
the objective for maximization (`-1 * objective_func`), reject unknown
directions, then extract the variable coefficients. -/
def prepare_objective_for_sdp (objective_func : Expr) (vars : List String)
    (objective_type : String := "minimize") : Except String (List ℚ) := do
  let t := pyLower objective_type
  if t = "max" ∨ t = "maximize" then
    let r ← lin_expr_coeffs (.mul (.const (mkRat (-1) 1)) objective_func) vars
    return r.1
  else if t = "min" ∨ t = "minimize" then
    let r ← lin_expr_coeffs objective_func vars
    return r.1
  else
    .error invalidObjectiveTypeMsg

/-- Well-formed dictionary: pairwise distinct monomial keys. -/
def QPoly.WF (p : QPoly) : Prop := (p.map Prod.fst).Nodup

/-- The affine expression `a0 + c₁*x₁ + ... + cₙ*xₙ` (sympy association:
a left fold of additions of coefficient-times-variable products). -/
def mkAffine (a0 : ℚ) (cs : List ℚ) (vs : List String) : Expr :=
  (vs.zip cs).foldl (fun e p => .add e (.mul (.const p.2) (.var p.1))) (.const a0)

/-- The block-diagonal concatenation of a list of square blocks, with
exact zeros everywhere off the blocks. -/
def blockDiag {α : Type} [Zero α] : List (Mat α) → Mat α
  | [] => []
  | B :: rest =>
    let R := blockDiag rest
    B.map (fun row => row ++ List.replicate R.length 0)
      ++ R.map (fun row => List.replicate B.length 0 ++ row)

/-- The interior block boundaries of a block list laid out from offset
`a`: every boundary except the final `n`. -/
def innerBounds {α : Type} (a : Nat) : List (Mat α) → List Nat
  | [] => []
  | [_] => []
  | B :: rest => (a + B.length) :: innerBounds (a + B.length) rest

/-- `GoodLayout M n a Bs`: inside the `n × n` matrix `M`, the blocks of
`Bs` are laid out consecutively on the diagonal from offset `a` to `n`,
with exact zeros between each block`s rows/columns and everything to its
right/below outside the block. -/
def GoodLayout {α : Type} [Zero α] (M : Mat α) (n : Nat) :
    Nat → List (Mat α) → Prop
  | a, [] => a = n
  | a, B :: rest =>
    (∀ i j, i < B.length → j < B.length →
      Mat.entry M (a + i) (a + j) = Mat.entry B i j)
    ∧ (∀ i j, i < B.length → a + B.length ≤ j → j < n →
        Mat.entry M (a + i) j = 0 ∧ Mat.entry M j (a + i) = 0)
    ∧ GoodLayout M n (a + B.length) rest

theorem qadd_eq (a b : ℚ) : qadd a b = a + b := by
  unfold qadd
  rw [Rat.mkRat_eq_div]
  push_cast
  conv_rhs => rw [← Rat.num_div_den a, ← Rat.num_div_den b]
  have ha : (a.den : ℚ) ≠ 0 := by positivity
  have hb : (b.den : ℚ) ≠ 0 := by positivity
  field_simp

theorem qmul_eq (a b : ℚ) : qmul a b = a * b := by
  unfold qmul
  rw [Rat.mkRat_eq_div]
  push_cast
  conv_rhs => rw [← Rat.num_div_den a, ← Rat.num_div_den b]
  have ha : (a.den : ℚ) ≠ 0 := by positivity
  have hb : (b.den : ℚ) ≠ 0 := by positivity
  field_simp

theorem scanCol_mem {α : Type} [Zero α] [DecidableEq α] {M : Mat α}
    {n c l : Nat} (h : scanCol M n c = some l) : c + 1 ≤ l ∧ l ≤ n - 1 := by
  have hm := List.mem_of_find?_eq_some h
  rw [List.mem_reverse, List.mem_range'] at hm
  omega

/-- The fuel bound of `blockIdxsAux` is irrelevant as soon as it dominates
`n - 1 - c`: the loop reaches `c ≥ n-1` before the fuel runs out.  This is
the termination of the `while` loop of `get_diag_block_idxs`. -/
theorem blockIdxsAux_fuel {α : Type} [Zero α] [DecidableEq α] (M : Mat α)
    (n : Nat) : ∀ fuel₁ fuel₂ c b, n - 1 - c ≤ fuel₁ → n - 1 - c ≤ fuel₂ →
    blockIdxsAux M n fuel₁ c b = blockIdxsAux M n fuel₂ c b := by
  intro fuel₁
  induction fuel₁
  case zero =>
    intro fuel₂ c b h₁ h₂
    have hc : ¬ c < n - 1 := by omega
    cases fuel₂ with
    | zero => rfl
    | succ g => simp [blockIdxsAux, hc]
  case succ f ih =>
    intro fuel₂ c b h₁ h₂
    by_cases hc : c < n - 1
    · cases fuel₂ with
      | zero => omega
      | succ g =>
        simp only [blockIdxsAux, hc, if_true]
        cases hs : scanCol M n c with
        | some l =>
          have hl := scanCol_mem hs
          exact ih g l b (by omega) (by omega)
        | none => exact ih g (c + 1) (b ++ [c + 1]) (by omega) (by omega)
    · cases fuel₂ with
      | zero => simp [blockIdxsAux, hc]
      | succ g => simp [blockIdxsAux, hc]

theorem QPoly.coeff_nil (m : Mono) : QPoly.coeff [] m = 0 := rfl

theorem QPoly.coeff_cons (mc : Mono × ℚ) (p : QPoly) (m : Mono) :
    QPoly.coeff (mc :: p) m = if mc.1 = m then mc.2 else QPoly.coeff p m := by
  by_cases h : mc.1 = m <;> simp [QPoly.coeff, List.find?_cons, h]

theorem QPoly.coeff_eq_zero_of_not_mem {p : QPoly} {m : Mono}
    (h : m ∉ p.map Prod.fst) : QPoly.coeff p m = 0 := by
  induction p with
  | nil => rfl
  | cons mc p ih =>
    simp only [List.map_cons, List.mem_cons] at h
    push_neg at h
    rw [QPoly.coeff_cons, if_neg (fun hh => h.1 hh.symm)]
    exact ih h.2

theorem coeff_insertMono (m : Mono) (c : ℚ) (p : QPoly) (m' : Mono) :
    QPoly.coeff (insertMono m c p) m'
      = QPoly.coeff p m' + (if m' = m then c else 0) := by
  induction p with
  | nil =>
    by_cases h : m = m'
    · subst h
      simp [insertMono, QPoly.coeff_cons, QPoly.coeff_nil]
    · have h' : ¬ m' = m := fun hh => h hh.symm
      simp [insertMono, QPoly.coeff_cons, QPoly.coeff_nil, h, h']
  | cons mc p ih =>
    by_cases hm : m = mc.1
    · rw [show insertMono m c (mc :: p) = (mc.1, qadd mc.2 c) :: p by
        simp [insertMono, hm]]
      rw [QPoly.coeff_cons, QPoly.coeff_cons, qadd_eq]
      by_cases h : mc.1 = m'
      · have hm' : m' = m := by rw [hm, h]
        rw [if_pos h, if_pos h, if_pos hm']
      · rw [if_neg h, if_neg h,
          if_neg (fun hh : m' = m => h (by rw [hm] at hh; exact hh.symm)),
          add_zero]
    · rw [show insertMono m c (mc :: p) = mc :: insertMono m c p by
        simp [insertMono, hm]]
      rw [QPoly.coeff_cons, QPoly.coeff_cons]
      by_cases h : mc.1 = m'
      · rw [if_pos h, if_pos h,
          if_neg (fun hh : m' = m => hm (by rw [← h] at hh; exact hh.symm)),
          add_zero]
      · rw [if_neg h, if_neg h, ih]

theorem keys_insertMono (m : Mono) (c : ℚ) (p : QPoly) :
    (insertMono m c p).map Prod.fst ⊆ m :: p.map Prod.fst := by
  induction p with
  | nil => simp [insertMono]
  | cons mc p ih =>
    by_cases hm : m = mc.1
    · subst hm
      simp [insertMono]
    · simp only [insertMono, if_neg hm, List.map_cons]
      intro a ha
      rcases List.mem_cons.mp ha with h | h
      · simp [h]
      · rcases List.mem_cons.mp (ih h) with h' | h'
        · simp [h']
        · simp [h']

theorem WF_insertMono (m : Mono) (c : ℚ) (p : QPoly) (hp : p.WF) :
    (insertMono m c p).WF := by
  induction p with
  | nil => simp [insertMono, QPoly.WF]
  | cons mc p ih =>
    simp only [QPoly.WF, List.map_cons, List.nodup_cons] at hp
    by_cases hm : m = mc.1
    · subst hm
      simpa [insertMono, QPoly.WF] using hp
    · simp only [insertMono, if_neg hm, QPoly.WF, List.map_cons,
        List.nodup_cons]
      refine ⟨fun hmem => ?_, ih hp.2⟩
      rcases List.mem_cons.mp (keys_insertMono m c p hmem) with h | h
      · exact hm (by rw [h])
      · exact hp.1 h

theorem coeff_addP (p : QPoly) : ∀ q : QPoly, q.WF →
    ∀ m, QPoly.coeff (QPoly.addP p q) m
      = QPoly.coeff p m + QPoly.coeff q m := by
  intro q
  induction q generalizing p with
  | nil => intro _ m; simp [QPoly.addP, QPoly.coeff_nil]
  | cons mc q ih =>
    intro hwf m
    simp only [QPoly.WF, List.map_cons, List.nodup_cons] at hwf
    have step : QPoly.addP p (mc :: q)
        = QPoly.addP (insertMono mc.1 mc.2 p) q := by
      simp [QPoly.addP, List.foldl_cons]
    rw [step, ih _ hwf.2, coeff_insertMono, QPoly.coeff_cons]
    by_cases h : mc.1 = m
    · have hq : QPoly.coeff q m = 0 :=
        QPoly.coeff_eq_zero_of_not_mem (by rw [← h]; exact hwf.1)
      rw [if_pos h, if_pos h.symm, hq]
      ring
    · rw [if_neg h, if_neg (fun hh => h hh.symm), add_zero]

theorem WF_addP (p q : QPoly) (hp : p.WF) : (QPoly.addP p q).WF := by
  induction q generalizing p with
  | nil => exact hp
  | cons mc q ih =>
    have step : QPoly.addP p (mc :: q)
        = QPoly.addP (insertMono mc.1 mc.2 p) q := by
      simp [QPoly.addP, List.foldl_cons]
    rw [step]
    exact ih _ (WF_insertMono _ _ _ hp)

theorem keys_stripZ (p : QPoly) :
    (QPoly.stripZ p).map Prod.fst ⊆ p.map Prod.fst :=
  ((List.filter_sublist p).map Prod.fst).subset

theorem WF_stripZ (p : QPoly) (hp : p.WF) : (QPoly.stripZ p).WF := by
  have hsub : (QPoly.stripZ p).Sublist p := List.filter_sublist p
  exact (hsub.map Prod.fst).nodup hp

theorem coeff_stripZ (p : QPoly) (hp : p.WF) (m : Mono) :
    QPoly.coeff (QPoly.stripZ p) m = QPoly.coeff p m := by
  induction p with
  | nil => rfl
  | cons mc p ih =>
    simp only [QPoly.WF, List.map_cons, List.nodup_cons] at hp
    by_cases hz : mc.2 ≠ 0
    · have : QPoly.stripZ (mc :: p) = mc :: QPoly.stripZ p := by
        simp [QPoly.stripZ, hz]
      rw [this, QPoly.coeff_cons, QPoly.coeff_cons, ih hp.2]
    · push_neg at hz
      have : QPoly.stripZ (mc :: p) = QPoly.stripZ p := by
        simp [QPoly.stripZ, hz]
      rw [this, ih hp.2, QPoly.coeff_cons]
      by_cases h : mc.1 = m
      · rw [if_pos h, hz,
          QPoly.coeff_eq_zero_of_not_mem (show m ∉ _ by rw [← h]; exact hp.1)]
      · rw [if_neg h]

theorem WF_mulP (p q : QPoly) : (QPoly.mulP p q).WF := by
  suffices h : ∀ acc : QPoly, acc.WF →
      (p.foldl (fun acc mc =>
        QPoly.addP acc (q.map (fun mc' => (mc.1 + mc'.1, qmul mc.2 mc'.2))))
        acc).WF by
    exact h [] (by simp [QPoly.WF])
  induction p with
  | nil => intro acc hacc; exact hacc
  | cons mc p ih =>
    intro acc hacc
    exact ih _ (WF_addP _ _ hacc)

theorem WF_powP (p : QPoly) (n : Nat) : (QPoly.powP p n).WF := by
  cases n with
  | zero => simp [QPoly.powP, QPoly.WF]
  | succ k => exact WF_mulP _ _

theorem expandPoly_WF (e : Expr) : (expandPoly e).WF := by
  induction e with
  | const q => exact WF_stripZ _ (by simp [QPoly.WF])
  | var s => simp [expandPoly, QPoly.WF]
  | add a b iha ihb => exact WF_stripZ _ (WF_addP _ _ iha)
  | mul a b iha ihb => exact WF_stripZ _ (WF_mulP _ _)
  | pow b n ihb => exact WF_stripZ _ (WF_powP _ _)

/-- Coefficients of an expanded sum are the sums of the coefficients. -/
theorem coeff_expand_add (a b : Expr) (m : Mono) :
    QPoly.coeff (expandPoly (.add a b)) m
      = QPoly.coeff (expandPoly a) m + QPoly.coeff (expandPoly b) m := by
  have hWF : (QPoly.addP (expandPoly a) (expandPoly b)).WF :=
    WF_addP _ _ (expandPoly_WF a)
  rw [show expandPoly (.add a b)
      = QPoly.stripZ (QPoly.addP (expandPoly a) (expandPoly b)) from rfl,
    coeff_stripZ _ hWF, coeff_addP _ _ (expandPoly_WF b)]

theorem keys_addP (p q : QPoly) :
    (QPoly.addP p q).map Prod.fst ⊆ p.map Prod.fst ++ q.map Prod.fst := by
  induction q generalizing p with
  | nil => simp [QPoly.addP]
  | cons mc q ih =>
    have step : QPoly.addP p (mc :: q)
        = QPoly.addP (insertMono mc.1 mc.2 p) q := by
      simp [QPoly.addP, List.foldl_cons]
    rw [step]
    intro a ha
    rcases List.mem_append.mp (ih (insertMono mc.1 mc.2 p) ha) with h | h
    · rcases List.mem_cons.mp (keys_insertMono _ _ _ h) with h' | h'
      · subst h'; simp
      · simp only [List.map_cons, List.mem_append, List.mem_cons]
        exact Or.inl h'
    · simp only [List.map_cons, List.mem_append, List.mem_cons]
      exact Or.inr (Or.inr h)

theorem keys_expand_add (a b : Expr) {m : Mono}
    (hm : m ∈ (expandPoly (.add a b)).map Prod.fst) :
    m ∈ (expandPoly a).map Prod.fst ∨ m ∈ (expandPoly b).map Prod.fst := by
  have h1 := keys_stripZ (QPoly.addP (expandPoly a) (expandPoly b)) hm
  exact List.mem_append.mp (keys_addP _ _ h1)

theorem expandPoly_const (q : ℚ) :
    expandPoly (.const q) = if q = 0 then [] else [(0, q)] := by
  by_cases h : q = 0 <;>
    simp [expandPoly, QPoly.stripZ, List.filter, h]

theorem coeff_expand_const (q : ℚ) (m : Mono) :
    QPoly.coeff (expandPoly (.const q)) m = if m = 0 then q else 0 := by
  rw [expandPoly_const]
  by_cases h : q = 0
  · simp only [if_pos h]
    by_cases hm : m = 0 <;> simp [QPoly.coeff_nil, hm, h]
  · simp only [if_neg h]
    by_cases hm : m = 0
    · simp [QPoly.coeff_cons, hm]
    · rw [QPoly.coeff_cons, if_neg (fun hh => hm hh.symm), if_neg hm,
        QPoly.coeff_nil]

theorem expandPoly_mul_const_var (c : ℚ) (x : String) :
    expandPoly (.mul (.const c) (.var x))
      = if c = 0 then [] else [({x}, c)] := by
  by_cases h : c = 0
  · simp [expandPoly, expandPoly_const, h, QPoly.stripZ, QPoly.mulP]
  · simp [expandPoly, expandPoly_const, h, QPoly.stripZ, QPoly.mulP,
      QPoly.addP, insertMono, List.filter, qmul_eq]

theorem expandPoly_mul_var_const (c : ℚ) (x : String) :
    expandPoly (.mul (.var x) (.const c))
      = if c = 0 then [] else [({x}, c)] := by
  by_cases h : c = 0
  · simp [expandPoly, expandPoly_const, h, QPoly.stripZ, QPoly.mulP,
      QPoly.addP, insertMono, List.filter]
  · simp [expandPoly, expandPoly_const, h, QPoly.stripZ, QPoly.mulP,
      QPoly.addP, insertMono, List.filter, qmul_eq]

theorem mono_singleton_inj {x y : String} :
    (({x} : Mono) = ({y} : Mono)) ↔ x = y := Multiset.singleton_inj

/-- Coefficient of the expanded form of an affine fold
`e₀ + term p₁ + ... + term pₖ`, where each `term p` expands to the single
scaled-variable monomial `p.2 * p.1`. -/
theorem coeff_expand_affineFold (term : String × ℚ → Expr)
    (ht : ∀ p : String × ℚ,
      expandPoly (term p) = if p.2 = 0 then [] else [({p.1}, p.2)]) :
    ∀ (L : List (String × ℚ)) (e₀ : Expr) (m : Mono),
    QPoly.coeff (expandPoly (L.foldl (fun e p => .add e (term p)) e₀)) m
      = QPoly.coeff (expandPoly e₀) m
        + (L.map (fun p => if m = ({p.1} : Mono) then p.2 else 0)).sum := by
  intro L
  induction L with
  | nil => intro e₀ m; simp
  | cons p L ih =>
    intro e₀ m
    rw [List.foldl_cons, ih, coeff_expand_add]
    have hterm : QPoly.coeff (expandPoly (term p)) m
        = if m = ({p.1} : Mono) then p.2 else 0 := by
      rw [ht p]
      by_cases hz : p.2 = 0
      · simp only [if_pos hz, QPoly.coeff_nil]
        by_cases hm : m = ({p.1} : Mono) <;> simp [hm, hz]
      · rw [if_neg hz, QPoly.coeff_cons]
        by_cases hm : ({p.1} : Mono) = m
        · rw [if_pos hm, if_pos hm.symm]
        · rw [if_neg hm, if_neg (fun hh => hm hh.symm), QPoly.coeff_nil]
    rw [hterm, List.map_cons, List.sum_cons]
    ring

/-- Keys of the expanded form of an affine fold come from the base or are
singletons of the folded variables. -/
theorem keys_expand_affineFold (term : String × ℚ → Expr)
    (ht : ∀ p : String × ℚ,
      expandPoly (term p) = if p.2 = 0 then [] else [({p.1}, p.2)]) :
    ∀ (L : List (String × ℚ)) (e₀ : Expr) (m : Mono),
    m ∈ (expandPoly (L.foldl (fun e p => .add e (term p)) e₀)).map Prod.fst →
      m ∈ (expandPoly e₀).map Prod.fst ∨ ∃ p ∈ L, m = ({p.1} : Mono) := by
  intro L
  induction L with
  | nil => intro e₀ m hm; exact Or.inl hm
  | cons p L ih =>
    intro e₀ m hm
    rw [List.foldl_cons] at hm
    rcases ih _ m hm with h | h
    · rcases keys_expand_add _ _ h with h' | h'
      · exact Or.inl h'
      · right
        refine ⟨p, List.mem_cons_self _ _, ?_⟩
        rw [ht p] at h'
        by_cases hz : p.2 = 0
        · rw [if_pos hz] at h'; simp at h'
        · rw [if_neg hz] at h'
          simpa using h'
    · obtain ⟨p', hp', hm'⟩ := h
      exact Or.inr ⟨p', List.mem_cons_of_mem _ hp', hm'⟩

theorem sum_indicator_notmem (v : String) (cs' : List ℚ) :
    ∀ vs' : List String, v ∉ vs' →
    ((vs'.zip cs').map
      (fun p => if ({v} : Mono) = ({p.1} : Mono) then p.2 else 0)).sum = 0 := by
  intro vs' hv
  apply List.sum_eq_zero
  intro q hq
  obtain ⟨p, hp, rfl⟩ := List.mem_map.mp hq
  have hp1 : p.1 ∈ vs' := (List.of_mem_zip hp).1
  rw [if_neg (fun hh => hv (by rw [mono_singleton_inj.mp hh]; exact hp1))]

theorem sum_indicator_zip_eq :
    ∀ (vs : List String) (cs : List ℚ), vs.Nodup → cs.length = vs.length →
    vs.map (fun x =>
      ((vs.zip cs).map
        (fun p => if ({x} : Mono) = ({p.1} : Mono) then p.2 else 0)).sum) = cs := by
  intro vs
  induction vs with
  | nil =>
    intro cs _ hlen
    rw [List.length_nil, List.length_eq_zero] at hlen
    simp [hlen]
  | cons v vs' ih =>
    intro cs hnd hlen
    cases cs with
    | nil => simp at hlen
    | cons c cs' =>
      simp only [List.nodup_cons] at hnd
      have hlen' : cs'.length = vs'.length := by
        simpa using hlen
      rw [List.map_cons]
      congr 1
      · rw [List.zip_cons_cons, List.map_cons, List.sum_cons, if_pos rfl,
          sum_indicator_notmem v cs' vs' hnd.1, add_zero]
      · rw [List.zip_cons_cons]
        have hcongr : ∀ x ∈ vs',
            (((v, c) :: vs'.zip cs').map
              (fun p => if ({x} : Mono) = ({p.1} : Mono) then p.2 else 0)).sum
            = ((vs'.zip cs').map
              (fun p => if ({x} : Mono) = ({p.1} : Mono) then p.2 else 0)).sum := by
          intro x hx
          rw [List.map_cons, List.sum_cons,
            if_neg (fun hh => hnd.1 (by
              have hxv : x = v := mono_singleton_inj.mp hh
              rw [← hxv]; exact hx)),
            zero_add]
        rw [List.map_congr_left hcongr, ih cs' hnd.2 hlen']

/-- Main affine-extraction lemma: `lin_expr_coeffs` recovers exactly the
built coefficients and constant of an affine fold over distinct
variables. -/
theorem lin_expr_coeffs_affineFold (term : String × ℚ → Expr)
    (ht : ∀ p : String × ℚ,
      expandPoly (term p) = if p.2 = 0 then [] else [({p.1}, p.2)])
    (a0 : ℚ) (vs : List String) (cs : List ℚ)
    (hnd : vs.Nodup) (hlen : cs.length = vs.length) :
    lin_expr_coeffs ((vs.zip cs).foldl (fun e p => .add e (term p)) (.const a0))
      vs = .ok (cs, a0) := by
  set e : Expr := (vs.zip cs).foldl (fun e p => Expr.add e (term p))
    (Expr.const a0) with he
  have hall : (expandPoly e).all (fun mc => okKey vs mc.1) = true := by
    rw [List.all_eq_true]
    intro mc hmc
    have hkey : mc.1 ∈ (expandPoly e).map Prod.fst :=
      List.mem_map_of_mem _ hmc
    rw [he] at hkey
    rcases keys_expand_affineFold term ht _ _ _ hkey with h | h
    · rw [expandPoly_const] at h
      by_cases hz : a0 = 0
      · rw [if_pos hz] at h; simp at h
      · rw [if_neg hz] at h
        simp only [List.map_cons, List.map_nil, List.mem_singleton] at h
        simp [okKey, h]
    · obtain ⟨p, hp, hm⟩ := h
      have hp1 : p.1 ∈ vs := (List.of_mem_zip hp).1
      simp only [okKey, Bool.or_eq_true, decide_eq_true_eq, List.any_eq_true]
      exact Or.inr ⟨p.1, hp1, by rw [hm]⟩
  have hcoeff : ∀ m, QPoly.coeff (expandPoly e) m
      = (if m = 0 then a0 else 0)
        + ((vs.zip cs).map
            (fun p => if m = ({p.1} : Mono) then p.2 else 0)).sum := by
    intro m
    rw [he, coeff_expand_affineFold term ht, coeff_expand_const]
  have h1 : vs.map (fun x => QPoly.coeff (expandPoly e) {x}) = cs := by
    rw [show (fun x => QPoly.coeff (expandPoly e) {x})
        = fun x => ((vs.zip cs).map
            (fun p => if ({x} : Mono) = ({p.1} : Mono) then p.2 else 0)).sum
      from funext fun x => by
        rw [hcoeff {x}, if_neg (Multiset.singleton_ne_zero x), zero_add]]
    exact sum_indicator_zip_eq vs cs hnd hlen
  have h2 : QPoly.coeff (expandPoly e) 0 = a0 := by
    rw [hcoeff 0, if_pos rfl]
    have : ((vs.zip cs).map
        (fun p => if (0 : Mono) = ({p.1} : Mono) then p.2 else 0)).sum = 0 := by
      apply List.sum_eq_zero
      intro q hq
      obtain ⟨p, hp, rfl⟩ := List.mem_map.mp hq
      rw [if_neg (fun hh => Multiset.singleton_ne_zero p.1 hh.symm)]
    rw [this, add_zero]
  rw [lin_expr_coeffs]
  simp only [hall, if_true, h1, h2]

/-- C1: for every affine expression `a0 + a1*x1 + ... + an*xn` with literal
rational coefficients over distinct variables, `lin_expr_coeffs` returns
exactly the coefficient list `[a1..an]` and the constant `a0`. -/
theorem C1_lin_expr_coeffs_affine_exact (a0 : ℚ) (cs : List ℚ)
    (vs : List String) (hnd : vs.Nodup) (hlen : cs.length = vs.length) :
    lin_expr_coeffs (mkAffine a0 cs vs) vs = .ok (cs, a0) := by
  unfold mkAffine
  exact lin_expr_coeffs_affineFold _
    (fun p => expandPoly_mul_const_var p.2 p.1) a0 vs cs hnd hlen

theorem C1_lin_expr_coeffs_affine_exact_witness :
    (["x", "y"] : List String).Nodup
    ∧ ([3, mkRat (-1) 2] : List ℚ).length = (["x", "y"] : List String).length
    ∧ lin_expr_coeffs (mkAffine 5 [3, mkRat (-1) 2] ["x", "y"]) ["x", "y"]
        = .ok ([3, mkRat (-1) 2], 5) :=
  ⟨by decide, by decide,
    C1_lin_expr_coeffs_affine_exact 5 [3, mkRat (-1) 2] ["x", "y"]
      (by decide) (by decide)⟩

theorem okKey_pair_false (vs : List String) (x y : String) :
    okKey vs ({x, y} : Mono) = false := by
  simp only [okKey, Bool.or_eq_false_iff, decide_eq_false_iff_not,
    List.any_eq_false]
  constructor
  · intro h
    have := congrArg Multiset.card h
    simp at this
  · intro z _ h
    rw [decide_eq_true_eq] at h
    have := congrArg Multiset.card h
    simp at this

/-- C3 (amended): an expression whose expanded form contains a product
monomial `x*y` of two distinct supplied variables makes `lin_expr_coeffs`
fail with the non-linear-expression condition; the error carries the fixed
message `nonLinearExprMsg`, which does not name the offending
expression. -/
theorem C3_product_of_vars_fails (e : Expr) (vs : List String)
    (x y : String) (c : ℚ) (hmem : (({x, y} : Mono), c) ∈ expandPoly e) :
    lin_expr_coeffs e vs = .error nonLinearExprMsg := by
  rw [lin_expr_coeffs]
  have hfail : (expandPoly e).all (fun mc => okKey vs mc.1) = false := by
    rcases hb : (expandPoly e).all (fun mc => okKey vs mc.1) with _ | _
    · rfl
    · have := List.all_eq_true.mp hb _ hmem
      rw [okKey_pair_false] at this
      cases this
  simp [hfail]

theorem C3_product_of_vars_fails_witness :
    ((({"u", "v"} : Mono), (1 : ℚ)) ∈ expandPoly (.mul (.var "u") (.var "v")))
    ∧ lin_expr_coeffs (.mul (.var "u") (.var "v")) ["u", "v"]
        = .error nonLinearExprMsg :=
  ⟨by decide,
    C3_product_of_vars_fails (.mul (.var "u") (.var "v")) ["u", "v"]
      "u" "v" 1 (by decide)⟩

/-- C3 counterexample to the claim as stated: the failure does not name
the offending expression.  The error is raised, but its message is a fixed
string: two different offending expressions produce the identical error
value, and the message does not contain the variable names of the
offending product (any rendering of `alpha*beta` would). -/
theorem C3_counterexample_error_does_not_name_expr :
    lin_expr_coeffs (.mul (.var "alpha") (.var "beta")) ["alpha", "beta"]
        = .error nonLinearExprMsg
    ∧ lin_expr_coeffs (.pow (.var "alpha") 2) ["alpha", "beta"]
        = .error nonLinearExprMsg
    ∧ ¬ ("alpha".toList <:+: nonLinearExprMsg.toList)
    ∧ ¬ ("beta".toList <:+: nonLinearExprMsg.toList) := by
  refine ⟨by decide, by decide, ?_, ?_⟩ <;> decide

/-- C10: an expression whose expanded form has a monomial containing a
symbol outside the supplied variable list is rejected with the very same
fixed non-linear-expression error, even when the expression is affine in
that symbol. -/
theorem C10_extraneous_symbol_same_error (e : Expr) (vs : List String)
    (w : String) (m : Mono) (c : ℚ) (hmem : (m, c) ∈ expandPoly e)
    (hwm : w ∈ m) (hw : w ∉ vs) :
    lin_expr_coeffs e vs = .error nonLinearExprMsg := by
  rw [lin_expr_coeffs]
  have hkey : okKey vs m = false := by
    simp only [okKey, Bool.or_eq_false_iff, decide_eq_false_iff_not,
      List.any_eq_false]
    constructor
    · intro h
      rw [h] at hwm
      exact absurd hwm (Multiset.not_mem_zero w)
    · intro z hz h
      rw [decide_eq_true_eq] at h
      rw [h, Multiset.mem_singleton] at hwm
      exact hw (hwm ▸ hz)
  have hfail : (expandPoly e).all (fun mc => okKey vs mc.1) = false := by
    rcases hb : (expandPoly e).all (fun mc => okKey vs mc.1) with _ | _
    · rfl
    · have := List.all_eq_true.mp hb _ hmem
      rw [hkey] at this
      cases this
  simp [hfail]

theorem C10_extraneous_symbol_same_error_witness :
    ((({"w"} : Mono), (1 : ℚ)) ∈ expandPoly (.add (.var "x") (.var "w")))
    ∧ ("w" ∈ ({"w"} : Mono))
    ∧ ("w" ∉ (["x"] : List String))
    ∧ lin_expr_coeffs (.add (.var "x") (.var "w")) ["x"]
        = .error nonLinearExprMsg :=
  ⟨by decide, by decide, by decide,
    C10_extraneous_symbol_same_error (.add (.var "x") (.var "w")) ["x"]
      "w" {"w"} 1 (by decide) (by decide) (by decide)⟩

theorem mapE_ok_forall₂ {A B : Type} (f : A → Except String B) :
    ∀ {l : List A} {ys : List B}, mapE f l = .ok ys →
    List.Forall₂ (fun a b => f a = .ok b) l ys := by
  intro l
  induction l with
  | nil =>
    intro ys h
    simp only [mapE, Except.ok.injEq] at h
    rw [show ys = [] from h.symm]
    exact List.Forall₂.nil
  | cons a as ih =>
    intro ys h
    simp only [mapE, bind, Except.bind] at h
    cases hfa : f a with
    | error e => rw [hfa] at h; cases h
    | ok b =>
      rw [hfa] at h
      cases hrest : mapE f as with
      | error e => rw [hrest] at h; cases h
      | ok bs =>
        rw [hrest] at h
        simp only [pure, Except.pure, Except.ok.injEq] at h
        rw [show ys = b :: bs from h.symm]
        exact List.Forall₂.cons hfa (ih hrest)

theorem mapE_ok_of_forall₂ {A B : Type} (f : A → Except String B) :
    ∀ {l : List A} {ys : List B},
    List.Forall₂ (fun a b => f a = .ok b) l ys → mapE f l = .ok ys := by
  intro l
  induction l with
  | nil =>
    intro ys h
    cases h
    rfl
  | cons a as ih =>
    intro ys h
    cases h with
    | cons hfa hrest =>
      simp only [mapE, bind, Except.bind, hfa, ih hrest, pure, Except.pure]

theorem mapE_error_message {A B : Type} (f : A → Except String B)
    (msg : String) (hf : ∀ a e, f a = .error e → e = msg) :
    ∀ (l : List A) (e : String), mapE f l = .error e → e = msg := by
  intro l
  induction l with
  | nil => intro e h; cases h
  | cons a as ih =>
    intro e h
    simp only [mapE, bind, Except.bind] at h
    cases hfa : f a with
    | error e' =>
      rw [hfa] at h
      cases h
      exact hf a e hfa
    | ok b =>
      rw [hfa] at h
      cases hrest : mapE f as with
      | error e' =>
        rw [hrest] at h
        cases h
        exact ih e hrest
      | ok bs => rw [hrest] at h; simp [pure, Except.pure] at h

theorem mapE_not_ok {A B : Type} (f : A → Except String B) :
    ∀ {l : List A} {a : A}, a ∈ l → ∀ {e : String}, f a = .error e →
    ∀ ys, mapE f l ≠ .ok ys := by
  intro l
  induction l with
  | nil => intro a ha; cases ha
  | cons x xs ih =>
    intro a ha e hfa ys hok
    simp only [mapE, bind, Except.bind] at hok
    cases hfx : f x with
    | error e' => rw [hfx] at hok; cases hok
    | ok b =>
      rw [hfx] at hok
      cases hrest : mapE f xs with
      | error e' => rw [hrest] at hok; cases hok
      | ok bs =>
        rcases List.mem_cons.mp ha with rfl | hmem
        · rw [hfa] at hfx; cases hfx
        · exact ih hmem hfa bs hrest

theorem mapE_error_of_mem {A B : Type} (f : A → Except String B)
    (msg : String) (hf : ∀ a e, f a = .error e → e = msg)
    {l : List A} {a : A} (ha : a ∈ l) {e : String} (hfa : f a = .error e) :
    mapE f l = .error msg := by
  cases hres : mapE f l with
  | ok ys => exact absurd hres (mapE_not_ok f ha hfa ys)
  | error e' => rw [mapE_error_message f msg hf l e' hres]

/-- C8: if any cell of the matrix fails the linearity check, the whole
`lm_sym_to_coeffs` call reports the non-linear-matrix condition (with its
fixed message) and returns no partial result. -/
theorem C8_nonlinear_cell_aborts_whole_call (lm : Mat Expr)
    (vs : List String) (i j : Nat) (hi : i < lm.length)
    (hj : j < (lm.getD i []).length)
    (hbad : lin_expr_coeffs ((lm.getD i []).getD j (Expr.const 0)) vs
      = .error nonLinearExprMsg) :
    lm_sym_to_coeffs lm vs = .error nonLinearMatMsg := by
  have hcellErr : ∀ (e : Expr) (m' : String),
      (match lin_expr_coeffs e vs with
        | .ok r => (.ok r : Except String (List ℚ × ℚ))
        | .error _ => .error nonLinearMatMsg) = .error m' →
      m' = nonLinearMatMsg := by
    intro e m' h
    cases hle : lin_expr_coeffs e vs with
    | ok r => rw [hle] at h; cases h
    | error e' => rw [hle] at h; cases h; rfl
  have hrowErr : ∀ (row : List Expr) (m' : String),
      mapE (fun e =>
        match lin_expr_coeffs e vs with
        | .ok r => .ok r
        | .error _ => .error nonLinearMatMsg) row = .error m' →
      m' = nonLinearMatMsg :=
    fun row => mapE_error_message _ _ hcellErr row
  have hcellmem : (lm.getD i []).getD j (Expr.const 0) ∈ lm.getD i [] := by
    rw [List.getD_eq_getElem _ _ hj]
    exact List.getElem_mem hj
  have hrowmem : lm.getD i [] ∈ lm := by
    rw [List.getD_eq_getElem _ _ hi]
    exact List.getElem_mem hi
  have hcellfail :
      (match lin_expr_coeffs ((lm.getD i []).getD j (Expr.const 0)) vs with
        | .ok r => (.ok r : Except String (List ℚ × ℚ))
        | .error _ => .error nonLinearMatMsg) = .error nonLinearMatMsg := by
    rw [hbad]
  have hrowfail : mapE (fun e =>
      match lin_expr_coeffs e vs with
      | .ok r => .ok r
      | .error _ => .error nonLinearMatMsg) (lm.getD i [])
      = .error nonLinearMatMsg :=
    mapE_error_of_mem _ _ hcellErr hcellmem hcellfail
  have houter : mapE (fun row => mapE (fun e =>
      match lin_expr_coeffs e vs with
      | .ok r => .ok r
      | .error _ => .error nonLinearMatMsg) row) lm
      = .error nonLinearMatMsg :=
    mapE_error_of_mem _ _ hrowErr hrowmem hrowfail
  rw [lm_sym_to_coeffs, houter]
  rfl

theorem C8_nonlinear_cell_aborts_whole_call_witness :
    0 < ([[Expr.pow (.var "x") 2, .var "x"]] : Mat Expr).length
    ∧ 0 < (([[Expr.pow (.var "x") 2, .var "x"]] : Mat Expr).getD 0 []).length
    ∧ lin_expr_coeffs
        ((([[Expr.pow (.var "x") 2, .var "x"]] : Mat Expr).getD 0 []).getD 0
          (Expr.const 0)) ["x"] = .error nonLinearExprMsg
    ∧ lm_sym_to_coeffs [[Expr.pow (.var "x") 2, .var "x"]] ["x"]
        = .error nonLinearMatMsg :=
  ⟨by decide, by decide, by decide,
    C8_nonlinear_cell_aborts_whole_call [[Expr.pow (.var "x") 2, .var "x"]]
      ["x"] 0 0 (by decide) (by decide) (by decide)⟩

/-- C9: `prepare_objective_for_sdp` accepts the four direction spellings
case-insensitively, negates the objective before extraction for
maximization (so `1.2 + x - 3.4*y` over `[x,y,z]` yields `[-1, 3.4, 0]`
maximizing and `[1, -3.4, 0]` minimizing), and fails with the fixed
invalid-argument error on every other direction string. -/
theorem C9_objective_direction_handling :
    prepare_objective_for_sdp
        (.add (.add (.const (mkRat 6 5)) (.var "x"))
          (.mul (.const (mkRat (-17) 5)) (.var "y"))) ["x", "y", "z"]
        "maximize" = .ok [-1, mkRat 17 5, 0]
    ∧ prepare_objective_for_sdp
        (.add (.add (.const (mkRat 6 5)) (.var "x"))
          (.mul (.const (mkRat (-17) 5)) (.var "y"))) ["x", "y", "z"]
        "MAXIMIZE" = .ok [-1, mkRat 17 5, 0]
    ∧ prepare_objective_for_sdp
        (.add (.add (.const (mkRat 6 5)) (.var "x"))
          (.mul (.const (mkRat (-17) 5)) (.var "y"))) ["x", "y", "z"]
        "Max" = .ok [-1, mkRat 17 5, 0]
    ∧ prepare_objective_for_sdp
        (.add (.add (.const (mkRat 6 5)) (.var "x"))
          (.mul (.const (mkRat (-17) 5)) (.var "y"))) ["x", "y", "z"]
        "minimize" = .ok [1, mkRat (-17) 5, 0]
    ∧ prepare_objective_for_sdp
        (.add (.add (.const (mkRat 6 5)) (.var "x"))
          (.mul (.const (mkRat (-17) 5)) (.var "y"))) ["x", "y", "z"]
        "MIN" = .ok [1, mkRat (-17) 5, 0]
    ∧ ∀ (f : Expr) (vs : List String) (s : String),
        pyLower s ∉ (["max", "maximize", "min", "minimize"] : List String) →
        prepare_objective_for_sdp f vs s = .error invalidObjectiveTypeMsg := by
  refine ⟨by decide, by decide, by decide, by decide, by decide, ?_⟩
  intro f vs s hs
  simp only [List.mem_cons, List.mem_singleton, not_or] at hs
  rw [prepare_objective_for_sdp]
  rw [if_neg (by push_neg; exact ⟨hs.1, hs.2.1⟩),
    if_neg (by push_neg; exact ⟨hs.2.2.1, hs.2.2.2.1⟩)]

theorem C9_objective_direction_handling_witness :
    pyLower "biggest" ∉ (["max", "maximize", "min", "minimize"] : List String)
    ∧ prepare_objective_for_sdp (.var "x") ["x"] "biggest"
        = .error invalidObjectiveTypeMsg :=
  ⟨by decide,
    C9_objective_direction_handling.2.2.2.2.2 (.var "x") ["x"] "biggest"
      (by decide)⟩

/-- Loop invariant of `get_diag_block_idxs`: starting below `n-1` with a
strictly increasing list of recorded boundaries that all lie at or below
the cursor, the loop returns an extension of that list that is strictly
increasing and bounded by `n-1`. -/
theorem blockIdxsAux_invariant {α : Type} [Zero α] [DecidableEq α]
    (M : Mat α) (n : Nat) :
    ∀ (fuel c : Nat) (b : List Nat), c ≤ n - 1 →
    List.Chain' (· < ·) b → (∀ x ∈ b, x ≤ c) →
    List.Chain' (· < ·) (blockIdxsAux M n fuel c b)
    ∧ (∀ x ∈ blockIdxsAux M n fuel c b, x ≤ n - 1)
    ∧ ∃ suffix, blockIdxsAux M n fuel c b = b ++ suffix := by
  intro fuel
  induction fuel with
  | zero =>
    intro c b hc hch hbd
    exact ⟨hch, fun x hx => le_trans (hbd x hx) hc, [], by simp [blockIdxsAux]⟩
  | succ f ih =>
    intro c b hc hch hbd
    by_cases hcn : c < n - 1
    · rw [show blockIdxsAux M n (f + 1) c b
          = (match scanCol M n c with
            | some l => blockIdxsAux M n f l b
            | none => blockIdxsAux M n f (c + 1) (b ++ [c + 1]))
        from by rw [blockIdxsAux, if_pos hcn]]
      cases hs : scanCol M n c with
      | some l =>
        have hl := scanCol_mem hs
        exact ih l b (by omega) hch (fun x hx => by
          have := hbd x hx; omega)
      | none =>
        have hch' : List.Chain' (· < ·) (b ++ [c + 1]) := by
          rw [List.chain'_append]
          refine ⟨hch, List.chain'_singleton _, ?_⟩
          intro x hx y hy
          simp only [List.head?_cons, Option.mem_def, Option.some.injEq] at hy
          have hxb : x ∈ b := by
            cases hb : b.getLast? with
            | none => rw [hb] at hx; cases hx
            | some z =>
              rw [hb] at hx
              cases hx
              exact List.mem_of_mem_getLast? (by rw [hb]; rfl)
          have := hbd x hxb
          omega
        have hbd' : ∀ x ∈ b ++ [c + 1], x ≤ c + 1 := by
          intro x hx
          rcases List.mem_append.mp hx with h | h
          · exact le_trans (hbd x h) (Nat.le_succ c)
          · simp only [List.mem_singleton] at h
            omega
        obtain ⟨hch'', hbd'', suffix, hsuf⟩ :=
          ih (c + 1) (b ++ [c + 1]) (by omega) hch' hbd'
        exact ⟨hch'', hbd'', [c + 1] ++ suffix, by rw [hsuf, List.append_assoc]⟩
    · rw [show blockIdxsAux M n (f + 1) c b = b
          from by rw [blockIdxsAux, if_neg hcn]]
      exact ⟨hch, fun x hx => le_trans (hbd x hx) hc, [], by simp⟩

/-- C6: on every square matrix the boundary scan terminates (the function
is total; its fuel bound is never reached, `blockIdxsAux_fuel`) and
returns a strictly increasing list of boundaries whose last element is the
matrix dimension `n`. -/
theorem C6_block_idxs_terminates_sorted_last_n {α : Type} [Zero α]
    [DecidableEq α] (M : Mat α) (hsq : M.length = Mat.cols M) :
    ∃ idxs, get_diag_block_idxs M = .ok idxs
      ∧ idxs.getLast? = some M.length
      ∧ List.Chain' (· < ·) idxs := by
  refine ⟨blockIdxsAux M M.length M.length 0 [] ++ [M.length],
    by rw [get_diag_block_idxs, if_pos hsq], List.getLast?_concat _, ?_⟩
  obtain ⟨hch, hbd, -⟩ := blockIdxsAux_invariant M M.length M.length 0 []
    (Nat.zero_le _) List.chain'_nil (by simp)
  rw [List.chain'_append]
  refine ⟨hch, List.chain'_singleton _, ?_⟩
  intro x hx y hy
  simp only [List.head?_cons, Option.mem_def, Option.some.injEq] at hy
  subst hy
  have hxb : x ∈ blockIdxsAux M M.length M.length 0 [] := by
    cases hb : (blockIdxsAux M M.length M.length 0 []).getLast? with
    | none => rw [hb] at hx; cases hx
    | some z =>
      rw [hb] at hx
      cases hx
      exact List.mem_of_mem_getLast? (by rw [hb]; rfl)
  have := hbd x hxb
  rcases Nat.eq_zero_or_pos M.length with h0 | h0
  · rw [h0] at hxb
    simp [blockIdxsAux] at hxb
  · omega

theorem C6_block_idxs_terminates_sorted_last_n_witness :
    ([[1, 0], [0, 2]] : Mat ℚ).length = Mat.cols ([[1, 0], [0, 2]] : Mat ℚ)
    ∧ ∃ idxs, get_diag_block_idxs ([[1, 0], [0, 2]] : Mat ℚ) = .ok idxs
      ∧ idxs.getLast? = some ([[1, 0], [0, 2]] : Mat ℚ).length
      ∧ List.Chain' (· < ·) idxs :=
  ⟨by decide, C6_block_idxs_terminates_sorted_last_n _ (by decide)⟩

theorem Mat_sub_zero_full {α : Type} (M : Mat α) (hsq : Mat.SquareWF M) :
    Mat.sub M 0 M.length = M := by
  unfold Mat.sub
  rw [Nat.sub_zero, List.drop_zero, List.take_length]
  have : ∀ row ∈ M, (row.drop 0).take M.length = row := by
    intro row hrow
    rw [List.drop_zero, ← hsq row hrow, List.take_length]
  rw [List.map_congr_left this]
  exact List.map_id _

/-- C7: `split_by_diag_blocks` returns the whole matrix as the single
block both for a `1×1` matrix and for a fully dense square matrix with no
structural zeros. -/
theorem C7_split_single_and_dense {α : Type} [Zero α] [DecidableEq α] :
    (∀ a : α, split_by_diag_blocks [[a]] = .ok [[[a]]])
    ∧ ∀ M : Mat α, Mat.SquareWF M → 1 ≤ M.length →
      (∀ i, i < M.length → ∀ j, j < M.length → Mat.entry M i j ≠ 0) →
      split_by_diag_blocks M = .ok [M] := by
  constructor
  · intro a
    simp [split_by_diag_blocks, get_diag_block_idxs, Mat.cols, blockIdxsAux,
      Mat.sub, bind, Except.bind, pure, Except.pure]
  · intro M hsq hn hdense
    have hcols : M.length = Mat.cols M := by
      cases M with
      | nil => simp at hn
      | cons row rest =>
        rw [show Mat.cols (row :: rest) = row.length from rfl,
          hsq row (List.mem_cons_self _ _)]
    have haux : blockIdxsAux M M.length M.length 0 [] = [] := by
      rcases Nat.lt_or_ge M.length 2 with h2 | h2
      · have h1 : M.length = 1 := by omega
        rw [h1]
        simp [blockIdxsAux]
      · have hscan : scanCol M M.length 0 = some (M.length - 1) := by
          unfold scanCol
          have hsplit : List.range' 1 (M.length - 1 - 0)
              = List.range' 1 (M.length - 2) ++ [M.length - 1] := by
            have he : M.length - 1 - 0 = (M.length - 2) + 1 := by omega
            rw [he, List.range'_concat]
            have he2 : 1 + 1 * (M.length - 2) = M.length - 1 := by omega
            rw [he2]
          rw [hsplit, List.reverse_append]
          simp only [List.reverse_cons, List.reverse_nil, List.nil_append,
            List.cons_append, List.singleton_append]
          apply List.find?_cons_of_pos
          have hd : Mat.entry M (M.length - 1) 0 ≠ 0 :=
            hdense (M.length - 1) (by omega) 0 (by omega)
          simp [hd]
        have key : ∀ fuel, blockIdxsAux M M.length (fuel + 1) 0 [] = [] := by
          intro fuel
          rw [show blockIdxsAux M M.length (fuel + 1) 0 []
              = (match scanCol M M.length 0 with
                | some l => blockIdxsAux M M.length fuel l []
                | none => blockIdxsAux M M.length fuel 1 ([] ++ [1]))
            from by rw [blockIdxsAux, if_pos (by omega)]]
          rw [hscan]
          cases fuel with
          | zero => rfl
          | succ g =>
            show blockIdxsAux M M.length (g + 1) (M.length - 1) [] = []
            rw [blockIdxsAux]
            rw [if_neg (by omega)]
        obtain ⟨f, hf⟩ : ∃ f, M.length = f + 1 := ⟨M.length - 1, by omega⟩
        nth_rewrite 2 [hf]
        exact key f
    rw [split_by_diag_blocks, get_diag_block_idxs, if_pos hcols, haux]
    simp only [List.nil_append, bind, Except.bind, List.dropLast_single]
    rw [show List.zip (0 :: ([] : List Nat)) [M.length] = [(0, M.length)]
      from rfl]
    rw [List.map_singleton]
    rw [Mat_sub_zero_full M hsq]
    rfl

theorem C7_split_single_and_dense_witness :
    split_by_diag_blocks ([[(7 : ℚ)]]) = .ok [[[7]]]
    ∧ Mat.SquareWF ([[1, 2], [3, 4]] : Mat ℚ)
    ∧ 1 ≤ ([[1, 2], [3, 4]] : Mat ℚ).length
    ∧ (∀ i, i < ([[1, 2], [3, 4]] : Mat ℚ).length →
        ∀ j, j < ([[1, 2], [3, 4]] : Mat ℚ).length →
        Mat.entry ([[1, 2], [3, 4]] : Mat ℚ) i j ≠ 0)
    ∧ split_by_diag_blocks ([[1, 2], [3, 4]] : Mat ℚ)
        = .ok [[[1, 2], [3, 4]]] :=
  ⟨C7_split_single_and_dense.1 7, by decide, by decide, by decide,
    C7_split_single_and_dense.2 [[1, 2], [3, 4]] (by decide) (by decide)
      (by decide)⟩

theorem getD_map' {β γ : Type} (f : β → γ) :
    ∀ (A : List β) (i : Nat), i < A.length → ∀ (dB : β) (dD : γ),
    (A.map f).getD i dD = f (A.getD i dB) := by
  intro A
  induction A with
  | nil => intro i hi; cases hi
  | cons a A ih =>
    intro i hi dB dD
    cases i with
    | zero => rfl
    | succ i =>
      simp only [List.map_cons, List.getD_cons_succ]
      exact ih i (by simpa using hi) dB dD

theorem getD_zipWith {β γ δ : Type} (f : β → γ → δ) :
    ∀ (A : List β) (C : List γ) (dA : β) (dC : γ) (dD : δ) (i : Nat),
    i < A.length → i < C.length →
    (List.zipWith f A C).getD i dD = f (A.getD i dA) (C.getD i dC) := by
  intro A
  induction A with
  | nil => intro C dA dC dD i hi; cases hi
  | cons a A ih =>
    intro C dA dC dD i hi hic
    cases C with
    | nil => cases hic
    | cons x C =>
      cases i with
      | zero => rfl
      | succ i =>
        simp only [List.zipWith_cons_cons, List.getD_cons_succ]
        exact ih C dA dC dD i (by simpa using hi) (by simpa using hic)

theorem list_ext_getD {β : Type} (d : β) :
    ∀ (A B : List β), A.length = B.length →
    (∀ i, i < A.length → A.getD i d = B.getD i d) → A = B := by
  intro A
  induction A with
  | nil =>
    intro B h _
    symm
    exact List.length_eq_zero.mp h.symm
  | cons a A ih =>
    intro B hlen hent
    cases B with
    | nil => cases hlen
    | cons b B =>
      have h0 := hent 0 (by simp)
      simp only [List.getD_cons_zero] at h0
      rw [h0]
      congr 1
      apply ih
      · simpa using hlen
      · intro i hi
        have := hent (i + 1) (by simpa using Nat.succ_lt_succ hi)
        simpa using this

theorem matExt {β : Type} (d : β) (A B : Mat β) (hlen : A.length = B.length)
    (hrow : ∀ i, i < A.length → (A.getD i []).length = (B.getD i []).length)
    (hent : ∀ i, i < A.length → ∀ j, j < (A.getD i []).length →
      (A.getD i []).getD j d = (B.getD i []).getD j d) : A = B :=
  list_ext_getD [] A B hlen
    (fun i hi => list_ext_getD d _ _ (hrow i hi) (hent i hi))

theorem range_map_getD {β : Type} (d : β) :
    ∀ l : List β, (List.range l.length).map (fun i => l.getD i d) = l := by
  intro l
  induction l with
  | nil => simp
  | cons a l ih =>
    rw [List.length_cons, List.range_succ_eq_map, List.map_cons,
      List.getD_cons_zero, List.map_map]
    have hcomp : (fun i => (a :: l).getD i d) ∘ (· + 1)
        = fun i => l.getD i d := funext fun i => by simp
    rw [hcomp, ih]

theorem getD_mem {β : Type} (l : List β) (i : Nat) (d : β) (hi : i < l.length) :
    l.getD i d ∈ l := by
  rw [List.getD_eq_getElem _ _ hi]
  exact List.getElem_mem hi

theorem mapE_ok_map {A B : Type} (f : A → Except String B) (g : A → B) :
    ∀ l : List A, (∀ a ∈ l, f a = .ok (g a)) → mapE f l = .ok (l.map g) := by
  intro l
  induction l with
  | nil => intro _; rfl
  | cons a as ih =>
    intro h
    simp only [mapE, bind, Except.bind, h a (List.mem_cons_self _ _),
      ih (fun x hx => h x (List.mem_cons_of_mem _ hx)), List.map_cons,
      pure, Except.pure]

theorem lmAddTerm_shape_entry (x : String) (lm : Mat Expr) (C : Mat ℚ)
    (r c : Nat) (hlm : lm.length = r)
    (hlmr : ∀ i, i < r → (lm.getD i []).length = c)
    (hC : C.length = r) (hCr : ∀ i, i < r → (C.getD i []).length = c) :
    (lmAddTerm x lm C).length = r
    ∧ (∀ i, i < r → ((lmAddTerm x lm C).getD i []).length = c)
    ∧ ∀ i, i < r → ∀ j, j < c →
      ((lmAddTerm x lm C).getD i []).getD j (Expr.const 0)
        = Expr.add ((lm.getD i []).getD j (Expr.const 0))
            (Expr.mul (.var x) (.const ((C.getD i []).getD j 0))) := by
  refine ⟨?_, ?_, ?_⟩
  · rw [lmAddTerm, List.length_zipWith, hlm, hC, Nat.min_self]
  · intro i hi
    rw [lmAddTerm,
      getD_zipWith _ lm C [] [] [] i (by omega) (by omega),
      List.length_zipWith, hlmr i hi, hCr i hi, Nat.min_self]
  · intro i hi j hj
    rw [lmAddTerm,
      getD_zipWith _ lm C [] [] [] i (by omega) (by omega),
      getD_zipWith _ _ _ (Expr.const 0) 0 (Expr.const 0) j
        (by rw [hlmr i hi]; exact hj) (by rw [hCr i hi]; exact hj)]

/-- Shape and entries of the matrix built by folding `lmAddTerm` over a
list of (variable, coefficient-matrix) pairs: every cell is the
corresponding scalar affine fold. -/
theorem lm_build_fold_shape_entry :
    ∀ (L : List (String × Mat ℚ)) (B : Mat Expr) (r c : Nat),
    B.length = r → (∀ i, i < r → (B.getD i []).length = c) →
    (∀ xC ∈ L, xC.2.length = r ∧ ∀ i, i < r → (xC.2.getD i []).length = c) →
    (L.foldl (fun lm xC => lmAddTerm xC.1 lm xC.2) B).length = r
    ∧ (∀ i, i < r →
        ((L.foldl (fun lm xC => lmAddTerm xC.1 lm xC.2) B).getD i []).length
          = c)
    ∧ ∀ i, i < r → ∀ j, j < c →
      ((L.foldl (fun lm xC => lmAddTerm xC.1 lm xC.2) B).getD i []).getD j
          (Expr.const 0)
        = L.foldl (fun e xC => Expr.add e (Expr.mul (.var xC.1)
            (.const ((xC.2.getD i []).getD j 0))))
            ((B.getD i []).getD j (Expr.const 0)) := by
  intro L
  induction L with
  | nil =>
    intro B r c hB hBr _
    exact ⟨hB, hBr, fun i _ j _ => rfl⟩
  | cons xC L ih =>
    intro B r c hB hBr hL
    have hxC := hL xC (List.mem_cons_self _ _)
    obtain ⟨h1, h2, h3⟩ :=
      lmAddTerm_shape_entry xC.1 B xC.2 r c hB hBr hxC.1 hxC.2
    obtain ⟨g1, g2, g3⟩ := ih (lmAddTerm xC.1 B xC.2) r c h1 h2
      (fun yC hyC => hL yC (List.mem_cons_of_mem _ hyC))
    refine ⟨g1, g2, ?_⟩
    intro i hi j hj
    rw [List.foldl_cons, g3 i hi j hj, h3 i hi j hj, List.foldl_cons]

theorem lin_expr_coeffs_ok_value (e : Expr) (vs : List String)
    (v : List ℚ × ℚ) (h : lin_expr_coeffs e vs = .ok v) :
    v = (vs.map (fun x => QPoly.coeff (expandPoly e) {x}),
         QPoly.coeff (expandPoly e) 0) := by
  rw [lin_expr_coeffs] at h
  by_cases hall : (expandPoly e).all (fun mc => okKey vs mc.1)
  · rw [if_pos hall] at h
    cases h
    rfl
  · rw [if_neg hall] at h
    cases h

theorem foldl_zip_map {γ : Type} (f : γ → ℚ) :
    ∀ (vs : List String) (Cs : List γ) (b : Expr),
    (vs.zip Cs).foldl (fun e xC => Expr.add e (Expr.mul (.var xC.1)
        (.const (f xC.2)))) b
      = (vs.zip (Cs.map f)).foldl (fun e p => Expr.add e (Expr.mul (.var p.1)
        (.const p.2))) b := by
  intro vs
  induction vs with
  | nil => intro Cs b; rfl
  | cons x vs' ih =>
    intro Cs b
    cases Cs with
    | nil => rfl
    | cons C Cs' =>
      simp only [List.map_cons, List.zip_cons_cons, List.foldl_cons]
      exact ih Cs' _

/-- C4: building the symbolic affine matrix from coefficient matrices
`C₁..Cₙ` and constant matrix `K` over distinct variables and extracting it
back with `lm_sym_to_coeffs` reproduces `(C₁..Cₙ, K)` exactly. -/
theorem C4_matrix_roundtrip (Cs : List (Mat ℚ)) (K : Mat ℚ) (vs : List String)
    (r c : Nat) (hnd : vs.Nodup) (hlen : Cs.length = vs.length)
    (hKl : K.length = r) (hKr : ∀ row ∈ K, row.length = c)
    (hCs : ∀ C ∈ Cs, C.length = r ∧ ∀ row ∈ C, row.length = c) :
    lm_sym_to_coeffs (lm_coeffs_to_sym (Cs, K) vs) vs = .ok (Cs, K) := by
  have hKr' : ∀ i, i < r → (K.getD i []).length = c := by
    intro i hi
    exact hKr _ (getD_mem K i [] (by omega))
  have hCs' : ∀ C ∈ Cs, C.length = r
      ∧ ∀ i, i < r → (C.getD i []).length = c := by
    intro C hC
    refine ⟨(hCs C hC).1, fun i hi => ?_⟩
    exact (hCs C hC).2 _ (getD_mem C i [] (by rw [(hCs C hC).1]; exact hi))
  set B : Mat Expr := K.map (fun row => row.map Expr.const) with hBdef
  have hB : B.length = r := by rw [hBdef, List.length_map, hKl]
  have hBr : ∀ i, i < r → (B.getD i []).length = c := by
    intro i hi
    rw [hBdef, getD_map' _ K i (by omega) [], List.length_map]
    exact hKr' i hi
  have hBent : ∀ i, i < r → ∀ j, j < c →
      (B.getD i []).getD j (Expr.const 0)
        = Expr.const ((K.getD i []).getD j 0) := by
    intro i hi j hj
    rw [hBdef, getD_map' _ K i (by omega) [],
      getD_map' Expr.const (K.getD i []) j (by rw [hKr' i hi]; exact hj) 0]
  set L : List (String × Mat ℚ) := vs.zip Cs with hLdef
  have hL : ∀ xC ∈ L, xC.2.length = r
      ∧ ∀ i, i < r → (xC.2.getD i []).length = c := by
    intro xC hxC
    exact hCs' xC.2 (List.of_mem_zip hxC).2
  have hRdef : lm_coeffs_to_sym (Cs, K) vs
      = L.foldl (fun lm xC => lmAddTerm xC.1 lm xC.2) B := rfl
  obtain ⟨hR1, hR2, hR3⟩ := lm_build_fold_shape_entry L B r c hB hBr hL
  set R : Mat Expr := L.foldl (fun lm xC => lmAddTerm xC.1 lm xC.2) B
    with hRdef2
  have hcell : ∀ i, i < r → ∀ j, j < c →
      lin_expr_coeffs ((R.getD i []).getD j (Expr.const 0)) vs
        = .ok (Cs.map (fun C => (C.getD i []).getD j 0),
               (K.getD i []).getD j 0) := by
    intro i hi j hj
    rw [hR3 i hi j hj, hBent i hi j hj]
    rw [foldl_zip_map (fun C => (C.getD i []).getD j 0) vs Cs]
    exact lin_expr_coeffs_affineFold _
      (fun p => expandPoly_mul_var_const p.2 p.1)
      ((K.getD i []).getD j 0) vs (Cs.map (fun C => (C.getD i []).getD j 0))
      hnd (by rw [List.length_map, hlen])
  set g : Expr → List ℚ × ℚ := fun e =>
    (vs.map (fun x => QPoly.coeff (expandPoly e) {x}),
     QPoly.coeff (expandPoly e) 0) with hgdef
  have hgval : ∀ i, i < r → ∀ j, j < c →
      g ((R.getD i []).getD j (Expr.const 0))
        = (Cs.map (fun C => (C.getD i []).getD j 0),
           (K.getD i []).getD j 0) :=
    fun i hi j hj =>
      (lin_expr_coeffs_ok_value _ vs _ (hcell i hi j hj)).symm
  have hcellF : ∀ i, i < r → ∀ j, j < c →
      (match lin_expr_coeffs ((R.getD i []).getD j (Expr.const 0)) vs with
        | .ok v => (.ok v : Except String (List ℚ × ℚ))
        | .error _ => .error nonLinearMatMsg)
        = .ok (g ((R.getD i []).getD j (Expr.const 0))) := by
    intro i hi j hj
    rw [hcell i hi j hj, hgval i hi j hj]
  have houter : mapE (fun row => mapE (fun e =>
      match lin_expr_coeffs e vs with
      | .ok v => .ok v
      | .error _ => .error nonLinearMatMsg) row) R
      = .ok (R.map (fun row => row.map g)) := by
    apply mapE_ok_map
    intro row hrow
    apply mapE_ok_map
    intro e he
    obtain ⟨i, hi, hieq⟩ := List.mem_iff_getElem.mp hrow
    obtain ⟨j, hj, hjeq⟩ := List.mem_iff_getElem.mp he
    have hiR : i < r := by omega
    have hrowD : R.getD i [] = row := by
      rw [List.getD_eq_getElem _ _ hi, hieq]
    have hjc : j < c := by
      have := hR2 i hiR
      rw [hrowD] at this
      omega
    have heD : (R.getD i []).getD j (Expr.const 0) = e := by
      rw [hrowD, List.getD_eq_getElem _ _ hj, hjeq]
    have := hcellF i hiR j hjc
    rw [heD] at this
    exact this
  rw [lm_sym_to_coeffs, hRdef, houter]
  simp only [bind, Except.bind, pure, Except.pure]
  have hmapmat : ∀ {δ : Type} (d : δ) (h : Expr → δ) (T : Mat δ),
      T.length = r → (∀ i, i < r → (T.getD i []).length = c) →
      (∀ i, i < r → ∀ j, j < c →
        h ((R.getD i []).getD j (Expr.const 0)) = (T.getD i []).getD j d) →
      R.map (fun row => row.map h) = T := by
    intro δ d h T hT1 hT2 hent
    apply matExt d
    · rw [List.length_map, hR1, hT1]
    · intro i hi
      rw [List.length_map, hR1] at hi
      rw [getD_map' _ R i (by omega) [], List.length_map, hR2 i hi, hT2 i hi]
    · intro i hi j hj
      rw [List.length_map, hR1] at hi
      rw [getD_map' _ R i (by omega) []] at hj ⊢
      rw [List.length_map, hR2 i hi] at hj
      rw [getD_map' h (R.getD i []) j (by rw [hR2 i hi]; omega)
        (Expr.const 0)]
      exact hent i hi j (by omega)
  have hcollapse : ∀ (h : List ℚ × ℚ → ℚ),
      (R.map (fun row => row.map g)).map (fun rr => rr.map h)
        = R.map (fun row => row.map (fun e => h (g e))) := by
    intro h
    rw [List.map_map]
    apply List.map_congr_left
    intro row _
    simp [List.map_map, Function.comp]
  have hconsts : (R.map (fun row => row.map g)).map
      (fun rr => rr.map Prod.snd) = K := by
    rw [hcollapse Prod.snd]
    apply hmapmat (0 : ℚ) _ K (by omega) hKr'
    intro i hi j hj
    rw [hgval i hi j hj]
  have hcoeffs : (List.range vs.length).map (fun t =>
      (R.map (fun row => row.map g)).map
        (fun rr => rr.map (fun cell => cell.1.getD t 0))) = Cs := by
    have hstep : ∀ t, t < Cs.length →
        (R.map (fun row => row.map g)).map
          (fun rr => rr.map (fun cell => cell.1.getD t 0)) = Cs.getD t [] := by
      intro t ht
      rw [hcollapse (fun cell => cell.1.getD t 0)]
      apply hmapmat (0 : ℚ) _ (Cs.getD t [])
        (hCs' _ (getD_mem Cs t [] ht)).1 (hCs' _ (getD_mem Cs t [] ht)).2
      intro i hi j hj
      rw [hgval i hi j hj]
      show (List.map (fun C => (List.getD C i []).getD j 0) Cs).getD t 0
        = (List.getD (List.getD Cs t []) i []).getD j 0
      rw [getD_map' _ Cs t ht []]
    rw [← hlen]
    rw [List.map_congr_left (fun t htm =>
      hstep t (List.mem_range.mp htm))]
    exact range_map_getD [] Cs
  rw [hconsts, hcoeffs]

theorem C4_matrix_roundtrip_witness :
    (["x", "y"] : List String).Nodup
    ∧ ([[[1, 2], [3, 4]], [[0, 5], [6, 7]]] : List (Mat ℚ)).length
        = (["x", "y"] : List String).length
    ∧ ([[9, 8], [7, 6]] : Mat ℚ).length = 2
    ∧ (∀ row ∈ ([[9, 8], [7, 6]] : Mat ℚ), row.length = 2)
    ∧ (∀ C ∈ ([[[1, 2], [3, 4]], [[0, 5], [6, 7]]] : List (Mat ℚ)),
        C.length = 2 ∧ ∀ row ∈ C, row.length = 2)
    ∧ lm_sym_to_coeffs
        (lm_coeffs_to_sym ([[[1, 2], [3, 4]], [[0, 5], [6, 7]]],
          [[9, 8], [7, 6]]) ["x", "y"]) ["x", "y"]
        = .ok ([[[1, 2], [3, 4]], [[0, 5], [6, 7]]], [[9, 8], [7, 6]]) :=
  ⟨by decide, by decide, by decide, by decide, by decide,
    C4_matrix_roundtrip [[[1, 2], [3, 4]], [[0, 5], [6, 7]]]
      [[9, 8], [7, 6]] ["x", "y"] 2 2 (by decide) (by decide) (by decide)
      (by decide) (by decide)⟩

/-- Shapes of a successful `lm_sym_to_coeffs` result: the constant matrix
mirrors the input shape row by row, and there is one same-shaped
coefficient matrix per variable. -/
theorem lm_sym_to_coeffs_sizes (lm : Mat Expr) (vs : List String)
    (pair : List (Mat ℚ) × Mat ℚ) (h : lm_sym_to_coeffs lm vs = .ok pair) :
    pair.2.length = lm.length
    ∧ List.Forall₂ (fun orow nrow => List.length nrow = List.length orow)
        lm pair.2
    ∧ pair.1.length = vs.length
    ∧ ∀ C ∈ pair.1, C.length = lm.length
        ∧ List.Forall₂ (fun orow nrow => List.length nrow = List.length orow)
            lm C := by
  rw [lm_sym_to_coeffs] at h
  simp only [bind, Except.bind] at h
  cases hcells : mapE (fun row => mapE (fun e =>
      match lin_expr_coeffs e vs with
      | .ok r => .ok r
      | .error _ => .error nonLinearMatMsg) row) lm with
  | error e => rw [hcells] at h; cases h
  | ok cells =>
    rw [hcells] at h
    simp only [pure, Except.pure, Except.ok.injEq] at h
    have hf2 := mapE_ok_forall₂ _ hcells
    have hrowlen : List.Forall₂
        (fun (orow : List Expr) (crow : List (List ℚ × ℚ)) =>
          crow.length = orow.length) lm cells :=
      hf2.imp (fun _ _ ha => (mapE_ok_forall₂ _ ha).length_eq.symm)
    subst h
    refine ⟨?_, ?_, ?_, ?_⟩
    · simp only [List.length_map]
      exact hrowlen.length_eq.symm
    · rw [List.forall₂_map_right_iff]
      exact hrowlen.imp (fun _ _ hl => by rw [List.length_map, hl])
    · simp
    · intro C hC
      simp only [List.mem_map, List.mem_range] at hC
      obtain ⟨t, _, rfl⟩ := hC
      constructor
      · simp only [List.length_map]
        exact hrowlen.length_eq.symm
      · rw [List.forall₂_map_right_iff]
        exact hrowlen.imp (fun _ _ hl => by rw [List.length_map, hl])

/-- C2: `prepare_lmi_for_sdp` treats a single inequality or bare matrix as
the one-element list (a bare matrix being wrapped as `LMI_PSD(m, 0)`), and
on a list with block-splitting enabled its successful result is the
order-preserving concatenation of the per-input block results: the total
count is the sum of per-input block counts, and each returned pair is the
extraction of its block, its matrices shaped by that block (one
coefficient matrix per variable plus the constant matrix), not by the
original matrix. -/
theorem C2_prepare_lmi_structure :
    (∀ (x : LMIInput) (vs : List String) (o : Bool),
      prepare_lmi_for_sdp (.single x) vs o = prepare_lmi_for_sdp (.list [x]) vs o)
    ∧ (∀ (m : Mat Expr) (vs : List String) (o : Bool),
      prepare_lmi_for_sdp (.single (.mat m)) vs o
        = prepare_lmi_for_sdp (.single (.ineq ⟨.psd, m, zeroMatLike m⟩)) vs o)
    ∧ ∀ (xs : List LMIInput) (vs : List String)
        (res : List (List (Mat ℚ) × Mat ℚ)),
      prepare_lmi_for_sdp (.list xs) vs true = .ok res →
      ∃ bss : List (List (Mat Expr)),
        List.Forall₂ (fun x bs =>
          split_by_diag_blocks (LMIInput.gts x) = .ok bs) xs bss
        ∧ res.length = (bss.map List.length).sum
        ∧ List.Forall₂ (fun slm pair =>
            lm_sym_to_coeffs slm vs = .ok pair
            ∧ pair.2.length = slm.length
            ∧ List.Forall₂ (fun orow nrow => List.length nrow = List.length orow)
                slm pair.2
            ∧ pair.1.length = vs.length
            ∧ ∀ C ∈ pair.1, C.length = slm.length
              ∧ List.Forall₂
                  (fun orow nrow => List.length nrow = List.length orow)
                  slm C)
          bss.flatten res := by
  refine ⟨fun x vs o => rfl, fun m vs o => rfl, ?_⟩
  intro xs vs res h
  rw [prepare_lmi_for_sdp] at h
  simp only [bind, Except.bind, if_true] at h
  cases hsplit : mapE split_by_diag_blocks (xs.map LMIInput.gts) with
  | error e => rw [hsplit] at h; cases h
  | ok bss =>
    rw [hsplit] at h
    simp only [pure, Except.pure] at h
    refine ⟨bss, ?_, ?_, ?_⟩
    · have := mapE_ok_forall₂ _ hsplit
      rwa [List.forall₂_map_left_iff] at this
    · have hres := mapE_ok_forall₂ _ h
      rw [hres.length_eq.symm, List.length_flatten]
    · have hres := mapE_ok_forall₂ _ h
      refine hres.imp ?_
      intro slm pair hp
      obtain ⟨h1, h2, h3, h4⟩ := lm_sym_to_coeffs_sizes slm vs pair hp
      exact ⟨hp, h1, h2, h3, h4⟩

theorem C2_prepare_lmi_structure_witness :
    prepare_lmi_for_sdp
        (.list [.mat [[.var "x", .const 0], [.const 0, .var "y"]],
                .ineq ⟨.psd, [[.var "y"]], [[.const 0]]⟩])
        ["x", "y"] true
      = .ok [([[[1]], [[0]]], [[0]]), ([[[0]], [[1]]], [[0]]),
             ([[[0]], [[1]]], [[0]])]
    ∧ ∃ bss : List (List (Mat Expr)),
        List.Forall₂ (fun x bs =>
          split_by_diag_blocks (LMIInput.gts x) = .ok bs)
          [.mat [[.var "x", .const 0], [.const 0, .var "y"]],
           .ineq ⟨.psd, [[.var "y"]], [[.const 0]]⟩] bss
        ∧ ([([[[1]], [[0]]], [[0]]), ([[[0]], [[1]]], [[0]]),
            ([[[0]], [[1]]], [[0]])] : List (List (Mat ℚ) × Mat ℚ)).length
            = (bss.map List.length).sum
        ∧ List.Forall₂ (fun slm pair =>
            lm_sym_to_coeffs slm ["x", "y"] = .ok pair
            ∧ pair.2.length = slm.length
            ∧ List.Forall₂ (fun orow nrow => List.length nrow = List.length orow)
                slm pair.2
            ∧ pair.1.length = (["x", "y"] : List String).length
            ∧ ∀ C ∈ pair.1, C.length = slm.length
              ∧ List.Forall₂
                  (fun orow nrow => List.length nrow = List.length orow)
                  slm C)
          bss.flatten
          [([[[1]], [[0]]], [[0]]), ([[[0]], [[1]]], [[0]]),
           ([[[0]], [[1]]], [[0]])] :=
  ⟨by decide,
    C2_prepare_lmi_structure.2.2
      [.mat [[.var "x", .const 0], [.const 0, .var "y"]],
       .ineq ⟨.psd, [[.var "y"]], [[.const 0]]⟩]
      ["x", "y"]
      [([[[1]], [[0]]], [[0]]), ([[[0]], [[1]]], [[0]]),
       ([[[0]], [[1]]], [[0]])]
      (by decide)⟩

theorem range'_split (s a b : Nat) :
    List.range' s (a + b) = List.range' s a ++ List.range' (s + a) b := by
  have h := (List.range'_append s a b 1).symm
  rw [Nat.add_comm b a] at h
  simpa using h

theorem getD_append_left {β : Type} :
    ∀ (l1 l2 : List β) (d : β) (i : Nat), i < l1.length →
    (l1 ++ l2).getD i d = l1.getD i d := by
  intro l1
  induction l1 with
  | nil => intro l2 d i hi; cases hi
  | cons a l1 ih =>
    intro l2 d i hi
    cases i with
    | zero => rfl
    | succ i =>
      simp only [List.cons_append, List.getD_cons_succ]
      exact ih l2 d i (by simpa using hi)

theorem getD_append_right {β : Type} :
    ∀ (l1 l2 : List β) (d : β) (i : Nat), l1.length ≤ i →
    (l1 ++ l2).getD i d = l2.getD (i - l1.length) d := by
  intro l1
  induction l1 with
  | nil => intro l2 d i _; rfl
  | cons a l1 ih =>
    intro l2 d i hi
    cases i with
    | zero => cases hi
    | succ i =>
      simp only [List.cons_append, List.getD_cons_succ, List.length_cons,
        Nat.succ_sub_succ]
      exact ih l2 d i (by simpa using hi)

theorem getD_replicate_zero {α : Type} [Zero α] :
    ∀ (k t : Nat), (List.replicate k (0 : α)).getD t 0 = 0 := by
  intro k
  induction k with
  | zero => intro t; cases t <;> rfl
  | succ k ih =>
    intro t
    cases t with
    | zero => rfl
    | succ t =>
      simp only [List.replicate_succ, List.getD_cons_succ]
      exact ih t

theorem blockDiag_length {α : Type} [Zero α] :
    ∀ Bs : List (Mat α),
    (blockDiag Bs).length = (Bs.map List.length).sum := by
  intro Bs
  induction Bs with
  | nil => rfl
  | cons B rest ih =>
    simp only [blockDiag, List.length_append, List.length_map, List.map_cons,
      List.sum_cons, ih]

/-- Entry characterization of the block-diagonal concatenation (head
block square). -/
theorem blockDiag_entry {α : Type} [Zero α] (B : Mat α) (rest : List (Mat α))
    (hB : Mat.SquareWF B) (i j : Nat) :
    Mat.entry (blockDiag (B :: rest)) i j
      = if i < B.length ∧ j < B.length then Mat.entry B i j
        else if B.length ≤ i ∧ B.length ≤ j then
          Mat.entry (blockDiag rest) (i - B.length) (j - B.length)
        else 0 := by
  set R := blockDiag rest with hR
  set m := B.length with hm
  have hlen : (B.map (fun row => row ++ List.replicate R.length (0:α))).length
      = m := by rw [List.length_map]
  by_cases hi : i < m
  · have h1 : Mat.entry (blockDiag (B :: rest)) i j
        = ((B.getD i []) ++ List.replicate R.length 0).getD j 0 := by
      rw [Mat.entry, show blockDiag (B :: rest)
          = B.map (fun row => row ++ List.replicate R.length (0:α))
            ++ R.map (fun row => List.replicate m 0 ++ row) from rfl,
        getD_append_left _ _ _ i (by rw [hlen]; exact hi),
        getD_map' _ B i (by rw [← hm]; exact hi) []]
    have hrowlen : (B.getD i []).length = m := hB _ (getD_mem B i [] hi)
    by_cases hj : j < m
    · rw [h1, getD_append_left _ _ _ j (by rw [hrowlen]; exact hj),
        if_pos ⟨hi, hj⟩]
      rfl
    · rw [h1, getD_append_right _ _ _ j (by rw [hrowlen]; omega),
        getD_replicate_zero, if_neg (by omega), if_neg (by omega)]
  · have h1 : Mat.entry (blockDiag (B :: rest)) i j
        = ((R.map (fun row => List.replicate m (0:α) ++ row)).getD (i - m)
            []).getD j 0 := by
      rw [Mat.entry, show blockDiag (B :: rest)
          = B.map (fun row => row ++ List.replicate R.length (0:α))
            ++ R.map (fun row => List.replicate m 0 ++ row) from rfl,
        getD_append_right _ _ _ i (by rw [hlen]; omega), hlen]
    by_cases hiR : i - m < R.length
    · have h2 : Mat.entry (blockDiag (B :: rest)) i j
          = (List.replicate m (0:α) ++ R.getD (i - m) []).getD j 0 := by
        rw [h1, getD_map' _ R (i - m) hiR []]
      by_cases hj : j < m
      · rw [h2, getD_append_left _ _ _ j
            (by rw [List.length_replicate]; exact hj),
          getD_replicate_zero, if_neg (by omega), if_neg (by omega)]
      · rw [h2, getD_append_right _ _ _ j
            (by rw [List.length_replicate]; omega),
          if_neg (by omega), if_pos ⟨by omega, by omega⟩]
        simp [Mat.entry]
    · have h2 : Mat.entry (blockDiag (B :: rest)) i j = 0 := by
        rw [h1, List.getD_eq_default
          (R.map (fun row => List.replicate m (0:α) ++ row)) []
          (by rw [List.length_map]; omega)]
        cases j <;> rfl
      have hmezero : Mat.entry R (i - m) (j - m) = 0 := by
        show (R.getD (i - m) []).getD (j - m) 0 = 0
        rw [List.getD_eq_default R [] (show R.length ≤ i - m by omega)]
        cases (j - m) <;> rfl
      rw [h2]
      by_cases hj : j < m
      · rw [if_neg (by omega), if_neg (by omega)]
      · rw [if_neg (by omega), if_pos ⟨by omega, by omega⟩, hmezero]

theorem blockDiag_cols {α : Type} [Zero α] :
    ∀ (Bs : List (Mat α)), (∀ B ∈ Bs, Mat.SquareWF B ∧ 1 ≤ B.length) →
    Mat.cols (blockDiag Bs) = (blockDiag Bs).length := by
  intro Bs h
  cases Bs with
  | nil => rfl
  | cons B rest =>
    obtain ⟨hBsq, hBpos⟩ := h B (List.mem_cons_self _ _)
    obtain ⟨row, brest, rfl⟩ : ∃ row brest, B = row :: brest := by
      cases B with
      | nil => simp at hBpos
      | cons r br => exact ⟨r, br, rfl⟩
    have hrow : row.length = (row :: brest).length := hBsq row (by simp)
    show (row ++ List.replicate (blockDiag rest).length (0:α)).length
      = ((row :: brest).map
          (fun r => r ++ List.replicate (blockDiag rest).length 0)
        ++ (blockDiag rest).map
          (fun r => List.replicate (row :: brest).length 0 ++ r)).length
    simp only [List.length_append, List.length_replicate, List.length_map,
      List.length_cons, hrow]

theorem goodLayout_shift {α : Type} [Zero α] (M M' : Mat α) (n' m : Nat)
    (hM : ∀ x y, x < n' → y < n' →
      Mat.entry M (m + x) (m + y) = Mat.entry M' x y) :
    ∀ (Bs : List (Mat α)) (a : Nat), a + (Bs.map List.length).sum ≤ n' →
    GoodLayout M' n' a Bs → GoodLayout M (m + n') (m + a) Bs := by
  intro Bs
  induction Bs with
  | nil =>
    intro a _ hgl
    show m + a = m + n'
    rw [show a = n' from hgl]
  | cons B rest ih =>
    intro a hbound hgl
    obtain ⟨hcopy, hzero, hrest⟩ := hgl
    have hsum : 1 * B.length + (rest.map List.length).sum
        = ((B :: rest).map List.length).sum := by simp
    refine ⟨?_, ?_, ?_⟩
    · intro i j hi hj
      rw [show m + a + i = m + (a + i) from by omega,
        show m + a + j = m + (a + j) from by omega,
        hM (a + i) (a + j) (by omega) (by omega)]
      exact hcopy i j hi hj
    · intro i j hi hj1 hj2
      have hj2' : j - m < n' := by omega
      have hjm : j = m + (j - m) := by omega
      constructor
      · rw [show m + a + i = m + (a + i) from by omega, hjm,
          hM (a + i) (j - m) (by omega) (by omega)]
        exact (hzero i (j - m) hi (by omega) (by omega)).1
      · rw [show m + a + i = m + (a + i) from by omega, hjm,
          hM (j - m) (a + i) (by omega) (by omega)]
        exact (hzero i (j - m) hi (by omega) (by omega)).2
    · rw [show m + a + B.length = m + (a + B.length) from by omega]
      exact ih (a + B.length) (by simp at hbound ⊢; omega) hrest

theorem goodLayout_bound {α : Type} [Zero α] (M : Mat α) (n : Nat) :
    ∀ (Bs : List (Mat α)) (a : Nat), GoodLayout M n a Bs →
    a + (Bs.map List.length).sum = n := by
  intro Bs
  induction Bs with
  | nil => intro a h; simpa using h
  | cons B rest ih =>
    intro a h
    have := ih (a + B.length) h.2.2
    simp only [List.map_cons, List.sum_cons]
    omega

theorem blockDiag_goodLayout {α : Type} [Zero α] :
    ∀ Bs : List (Mat α), (∀ B ∈ Bs, Mat.SquareWF B) →
    GoodLayout (blockDiag Bs) (blockDiag Bs).length 0 Bs := by
  intro Bs
  induction Bs with
  | nil => intro _; rfl
  | cons B rest ih =>
    intro h
    have hBsq : Mat.SquareWF B := h B (List.mem_cons_self _ _)
    have hrest : ∀ B' ∈ rest, Mat.SquareWF B' :=
      fun B' hB' => h B' (List.mem_cons_of_mem _ hB')
    have ihg := ih hrest
    have hn : (blockDiag (B :: rest)).length
        = B.length + (blockDiag rest).length := by
      rw [blockDiag_length, blockDiag_length]
      simp
    refine ⟨?_, ?_, ?_⟩
    · intro i j hi hj
      rw [show (0:Nat) + i = i from by omega,
        show (0:Nat) + j = j from by omega,
        blockDiag_entry B rest hBsq i j, if_pos ⟨hi, hj⟩]
    · intro i j hi hj1 hj2
      constructor
      · rw [show (0:Nat) + i = i from by omega,
          blockDiag_entry B rest hBsq i j,
          if_neg (by omega), if_neg (by omega)]
      · rw [show (0:Nat) + i = i from by omega,
          blockDiag_entry B rest hBsq j i,
          if_neg (by omega), if_neg (by omega)]
    · have hM : ∀ x y, x < (blockDiag rest).length →
          y < (blockDiag rest).length →
          Mat.entry (blockDiag (B :: rest)) (B.length + x) (B.length + y)
            = Mat.entry (blockDiag rest) x y := by
        intro x y hx hy
        rw [blockDiag_entry B rest hBsq (B.length + x) (B.length + y),
          if_neg (by omega), if_pos ⟨by omega, by omega⟩,
          Nat.add_sub_cancel_left, Nat.add_sub_cancel_left]
      have hbound : 0 + (rest.map List.length).sum
          ≤ (blockDiag rest).length := by
        rw [blockDiag_length]
        omega
      have h1 := goodLayout_shift (blockDiag (B :: rest)) (blockDiag rest)
        (blockDiag rest).length B.length hM rest 0 hbound ihg
      rw [show (0:Nat) + B.length = B.length + 0 from by omega, hn]
      exact h1

theorem blockIdxsAux_acc {α : Type} [Zero α] [DecidableEq α] (M : Mat α)
    (n : Nat) : ∀ (fuel c : Nat) (b : List Nat),
    blockIdxsAux M n fuel c b = b ++ blockIdxsAux M n fuel c [] := by
  intro fuel
  induction fuel with
  | zero => intro c b; simp [blockIdxsAux]
  | succ f ih =>
    intro c b
    by_cases hc : c < n - 1
    · have hstep : ∀ b', blockIdxsAux M n (f + 1) c b'
          = (match scanCol M n c with
            | some l => blockIdxsAux M n f l b'
            | none => blockIdxsAux M n f (c + 1) (b' ++ [c + 1])) :=
        fun b' => by rw [blockIdxsAux, if_pos hc]
      rw [hstep b, hstep []]
      cases hs : scanCol M n c with
      | some l => exact ih l b
      | none =>
        simp only [List.nil_append]
        rw [ih (c + 1) (b ++ [c + 1]), ih (c + 1) [c + 1]]
        simp
    · rw [blockIdxsAux, if_neg hc, blockIdxsAux, if_neg hc]
      simp

theorem find?_congr_mem {β : Type} (p q : β → Bool) :
    ∀ l : List β, (∀ x ∈ l, p x = q x) → l.find? p = l.find? q := by
  intro l
  induction l with
  | nil => intro _; rfl
  | cons a l ih =>
    intro h
    rw [List.find?_cons, List.find?_cons, h a (List.mem_cons_self _ _),
      ih (fun x hx => h x (List.mem_cons_of_mem _ hx))]

/-- Scanning column `a + t` of the big matrix sees only the block at
offset `a` (everything beyond the block is structurally zero), so the
scan result is the block-local scan, shifted. -/
theorem scanCol_offset {α : Type} [Zero α] [DecidableEq α] (M B : Mat α)
    (n a m : Nat) (hman : a + m ≤ n) (hm : 1 ≤ m)
    (hcopy : ∀ i j, i < m → j < m →
      Mat.entry M (a + i) (a + j) = Mat.entry B i j)
    (hzero : ∀ i j, i < m → a + m ≤ j → j < n →
      Mat.entry M (a + i) j = 0 ∧ Mat.entry M j (a + i) = 0)
    (t : Nat) (ht : t ≤ m - 1) :
    scanCol M n (a + t) = (scanCol B m t).map (a + ·) := by
  unfold scanCol
  have hsplit : List.range' (a + t + 1) (n - 1 - (a + t))
      = List.range' (a + t + 1) (m - 1 - t)
        ++ List.range' (a + m) (n - (a + m)) := by
    have h1 : n - 1 - (a + t) = (m - 1 - t) + (n - (a + m)) := by omega
    rw [h1, range'_split]
    congr 2
    omega
  rw [hsplit, List.reverse_append, List.find?_append]
  have hfirst : (List.range' (a + m) (n - (a + m))).reverse.find?
      (fun l => decide (Mat.entry M l (a + t) ≠ 0)
        || decide (Mat.entry M (a + t) l ≠ 0)) = none := by
    rw [List.find?_eq_none]
    intro l hl
    rw [List.mem_reverse, List.mem_range'_1] at hl
    rw [(hzero t l (by omega) (by omega) (by omega)).1,
      (hzero t l (by omega) (by omega) (by omega)).2]
    simp
  rw [hfirst, Option.none_or]
  have hmap : List.range' (a + t + 1) (m - 1 - t)
      = (List.range' (t + 1) (m - 1 - t)).map (a + ·) := by
    rw [List.range'_eq_map_range, List.range'_eq_map_range, List.map_map]
    apply List.map_congr_left
    intro x _
    show a + t + 1 + x = a + (t + 1 + x)
    omega
  rw [hmap, ← List.map_reverse, List.find?_map]
  congr 1
  apply find?_congr_mem
  intro x hx
  rw [List.mem_reverse, List.mem_range'_1] at hx
  show (decide (Mat.entry M (a + x) (a + t) ≠ 0)
      || decide (Mat.entry M (a + t) (a + x) ≠ 0)) = _
  rw [hcopy x t (by omega) (by omega), hcopy t x (by omega) (by omega)]

/-- Phase lemma: while the cursor is inside an idempotent block laid out
at offset `a`, the big-matrix loop follows the block-local chain without
recording boundaries, and on reaching the block end either stops (last
block) or records the boundary `a + m` and continues from it. -/
theorem blockPhase {α : Type} [Zero α] [DecidableEq α] (M B : Mat α)
    (n a m : Nat) (hman : a + m ≤ n) (hm : 1 ≤ m)
    (hcopy : ∀ i j, i < m → j < m →
      Mat.entry M (a + i) (a + j) = Mat.entry B i j)
    (hzero : ∀ i j, i < m → a + m ≤ j → j < n →
      Mat.entry M (a + i) j = 0 ∧ Mat.entry M j (a + i) = 0) :
    ∀ (k t : Nat), m - 1 - t = k → t ≤ m - 1 →
    blockIdxsAux B m (m - 1 - t) t [] = [] →
    ∀ (fuel : Nat) (b : List Nat), n - 1 - (a + t) ≤ fuel →
    blockIdxsAux M n fuel (a + t) b
      = if a + m = n then b
        else blockIdxsAux M n (n - 1 - (a + m)) (a + m) (b ++ [a + m]) := by
  intro k
  induction k using Nat.strong_induction_on with
  | _ k ihk =>
    intro t hk ht hB fuel b hfuel
    by_cases hlast : t = m - 1
    · subst hlast
      have hscan : scanCol M n (a + (m - 1)) = none := by
        rw [scanCol_offset M B n a m hman hm hcopy hzero (m - 1) (le_refl _)]
        rw [show scanCol B m (m - 1) = none from by
          unfold scanCol
          rw [show m - 1 - (m - 1) = 0 from by omega]
          rfl]
        rfl
      by_cases hend : a + m = n
      · rw [if_pos hend]
        cases fuel with
        | zero => rfl
        | succ f => rw [blockIdxsAux, if_neg (by omega)]
      · rw [if_neg hend]
        obtain ⟨f, rfl⟩ : ∃ f, fuel = f + 1 := ⟨fuel - 1, by omega⟩
        rw [show blockIdxsAux M n (f + 1) (a + (m - 1)) b
            = (match scanCol M n (a + (m - 1)) with
              | some l => blockIdxsAux M n f l b
              | none => blockIdxsAux M n f (a + (m - 1) + 1)
                  (b ++ [a + (m - 1) + 1]))
          from by rw [blockIdxsAux, if_pos (by omega)]]
        rw [hscan]
        rw [show a + (m - 1) + 1 = a + m from by omega]
        exact blockIdxsAux_fuel M n f (n - 1 - (a + m)) (a + m) (b ++ [a + m])
          (by omega) (by omega)
    · have htlt : t < m - 1 := by omega
      obtain ⟨fB, hfB⟩ : ∃ fB, m - 1 - t = fB + 1 := ⟨m - 1 - t - 1, by omega⟩
      rw [hfB] at hB
      rw [show blockIdxsAux B m (fB + 1) t []
          = (match scanCol B m t with
            | some l => blockIdxsAux B m fB l []
            | none => blockIdxsAux B m fB (t + 1) ([] ++ [t + 1]))
        from by rw [blockIdxsAux, if_pos (by omega)]] at hB
      cases hsB : scanCol B m t with
      | none =>
        rw [hsB] at hB
        rw [blockIdxsAux_acc] at hB
        simp at hB
      | some l =>
        rw [hsB] at hB
        have hlb := scanCol_mem hsB
        have hB' : blockIdxsAux B m (m - 1 - l) l [] = [] := by
          rw [blockIdxsAux_fuel B m (m - 1 - l) fB l [] (le_refl _) (by omega)]
          exact hB
        have hscanM : scanCol M n (a + t) = some (a + l) := by
          rw [scanCol_offset M B n a m hman hm hcopy hzero t (by omega), hsB]
          rfl
        obtain ⟨f, rfl⟩ : ∃ f, fuel = f + 1 := ⟨fuel - 1, by omega⟩
        rw [show blockIdxsAux M n (f + 1) (a + t) b
            = (match scanCol M n (a + t) with
              | some l' => blockIdxsAux M n f l' b
              | none => blockIdxsAux M n f (a + t + 1) (b ++ [a + t + 1]))
          from by rw [blockIdxsAux, if_pos (by omega)]]
        rw [hscanM]
        exact ihk (m - 1 - l) (by omega) l rfl (by omega) hB' f b (by omega)

/-- Running the boundary loop over a good layout of idempotent blocks
records exactly the interior block boundaries. -/
theorem runBlocks {α : Type} [Zero α] [DecidableEq α] (M : Mat α) (n : Nat) :
    ∀ (Bs : List (Mat α)) (a : Nat), Bs ≠ [] →
    (∀ B ∈ Bs, 1 ≤ B.length
      ∧ blockIdxsAux B B.length B.length 0 [] = []) →
    GoodLayout M n a Bs →
    ∀ (fuel : Nat) (b : List Nat), n - 1 - a ≤ fuel →
    blockIdxsAux M n fuel a b = b ++ innerBounds a Bs := by
  intro Bs
  induction Bs with
  | nil => intro a h; cases h rfl
  | cons B rest ih =>
    intro a _ hblk hgl fuel b hfuel
    obtain ⟨hcopy, hzero, hglrest⟩ := hgl
    obtain ⟨hmpos, hidem⟩ := hblk B (List.mem_cons_self _ _)
    have hidem' : blockIdxsAux B B.length (B.length - 1 - 0) 0 [] = [] := by
      rw [blockIdxsAux_fuel B B.length (B.length - 1 - 0) B.length 0 []
        (le_refl _) (by omega)]
      exact hidem
    have hbound := goodLayout_bound M n rest (a + B.length) hglrest
    have hman : a + B.length ≤ n := by omega
    have hph := blockPhase M B n a B.length hman hmpos hcopy hzero
      (B.length - 1) 0 rfl (by omega) hidem' fuel b (by omega)
    simp only [Nat.add_zero] at hph
    cases rest with
    | nil =>
      have hend : a + B.length = n := by simpa using hbound
      rw [if_pos hend] at hph
      rw [show innerBounds a [B] = [] from rfl, List.append_nil]
      exact hph
    | cons B2 rest2 =>
      have h2pos := (hblk B2 (by simp)).1
      have hend : a + B.length ≠ n := by
        simp only [List.map_cons, List.sum_cons] at hbound
        omega
      rw [if_neg hend] at hph
      rw [hph, ih (a + B.length) (by simp)
        (fun B' hB' => hblk B' (List.mem_cons_of_mem _ hB'))
        hglrest (n - 1 - (a + B.length)) (b ++ [a + B.length]) (le_refl _)]
      rw [show innerBounds a (B :: B2 :: rest2)
          = (a + B.length) :: innerBounds (a + B.length) (B2 :: rest2)
        from rfl]
      simp

theorem split_self_aux_nil {α : Type} [Zero α] [DecidableEq α] (B : Mat α)
    (h : split_by_diag_blocks B = .ok [B]) :
    blockIdxsAux B B.length B.length 0 [] = [] := by
  rw [split_by_diag_blocks] at h
  simp only [bind, Except.bind] at h
  by_cases hsq : B.length = Mat.cols B
  · rw [get_diag_block_idxs, if_pos hsq] at h
    simp only [pure, Except.pure, Except.ok.injEq] at h
    have hlen := congrArg List.length h
    rw [List.length_map, List.length_zip, List.length_cons,
      List.length_dropLast, List.length_append] at hlen
    simp only [List.length_singleton, List.length_append] at hlen
    have : (blockIdxsAux B B.length B.length 0 []).length = 0 := by omega
    exact List.length_eq_zero.mp this
  · rw [get_diag_block_idxs, if_neg hsq] at h
    cases h

theorem goodLayout_block_entries {α : Type} [Zero α] (M : Mat α) (n : Nat) :
    ∀ (Bs : List (Mat α)) (a : Nat), GoodLayout M n a Bs →
    ∀ B ∈ Bs, ∃ o, ∀ i j, i < B.length → j < B.length →
      Mat.entry M (o + i) (o + j) = Mat.entry B i j := by
  intro Bs
  induction Bs with
  | nil => intro a _ B hB; cases hB
  | cons B' rest ih =>
    intro a hgl B hB
    rcases List.mem_cons.mp hB with rfl | hmem
    · exact ⟨a, hgl.1⟩
    · exact ih (a + B'.length) hgl.2.2 B hmem

theorem sub_blockDiag_head {α : Type} [Zero α] (B : Mat α)
    (rest : List (Mat α)) (hB : Mat.SquareWF B) :
    Mat.sub (blockDiag (B :: rest)) 0 B.length = B := by
  rw [show blockDiag (B :: rest)
      = B.map (fun row => row ++ List.replicate (blockDiag rest).length 0)
        ++ (blockDiag rest).map
          (fun row => List.replicate B.length 0 ++ row) from rfl]
  rw [Mat.sub, Nat.sub_zero, List.drop_zero,
    List.take_left' (by rw [List.length_map])]
  rw [List.map_map]
  have : ∀ row ∈ B,
      (((fun row => row ++ List.replicate (blockDiag rest).length (0:α))
        row).drop 0).take B.length = row := by
    intro row hrow
    simp only [List.drop_zero]
    rw [List.take_left' (hB row hrow)]
  rw [show (fun row => ((row.drop 0).take B.length))
      ∘ (fun row => row ++ List.replicate (blockDiag rest).length (0:α))
      = fun row => ((row ++ List.replicate (blockDiag rest).length (0:α)).drop
          0).take B.length from rfl]
  rw [List.map_congr_left this]
  exact List.map_id _

theorem sub_blockDiag_shift {α : Type} [Zero α] (B : Mat α)
    (rest : List (Mat α)) (a b : Nat) :
    Mat.sub (blockDiag (B :: rest)) (B.length + a) (B.length + b)
      = Mat.sub (blockDiag rest) a b := by
  rw [show blockDiag (B :: rest)
      = B.map (fun row => row ++ List.replicate (blockDiag rest).length 0)
        ++ (blockDiag rest).map
          (fun row => List.replicate B.length 0 ++ row) from rfl]
  rw [Mat.sub, Mat.sub]
  have hdrop : (B.map (fun row =>
        row ++ List.replicate (blockDiag rest).length (0:α))
      ++ (blockDiag rest).map
        (fun row => List.replicate B.length 0 ++ row)).drop (B.length + a)
      = ((blockDiag rest).map
        (fun row => List.replicate B.length (0:α) ++ row)).drop a := by
    rw [show B.length + a
        = (B.map (fun row =>
            row ++ List.replicate (blockDiag rest).length (0:α))).length + a
      from by rw [List.length_map]]
    exact List.drop_append a
  rw [hdrop, show B.length + b - (B.length + a) = b - a from by omega]
  rw [← List.map_drop, ← List.map_take, List.map_map]
  apply List.map_congr_left
  intro row _
  show ((List.replicate B.length (0:α) ++ row).drop (B.length + a)).take
      (b - a) = (row.drop a).take (b - a)
  rw [show B.length + a = (List.replicate B.length (0:α)).length + a
    from by rw [List.length_replicate]]
  rw [List.drop_append a]

theorem innerBounds_shift {α : Type} :
    ∀ (Bs : List (Mat α)) (a d : Nat),
    innerBounds (a + d) Bs = (innerBounds d Bs).map (a + ·) := by
  intro Bs
  induction Bs with
  | nil => intro a d; rfl
  | cons B rest ih =>
    intro a d
    cases rest with
    | nil => rfl
    | cons B2 rest2 =>
      rw [show innerBounds (a + d) (B :: B2 :: rest2)
          = (a + d + B.length)
            :: innerBounds (a + d + B.length) (B2 :: rest2) from rfl,
        show innerBounds d (B :: B2 :: rest2)
          = (d + B.length) :: innerBounds (d + B.length) (B2 :: rest2)
        from rfl]
      rw [List.map_cons]
      rw [show a + d + B.length = a + (d + B.length) from by omega]
      rw [ih a (d + B.length)]

theorem zipSub_blocks {α : Type} [Zero α] :
    ∀ (Bs : List (Mat α)), Bs ≠ [] → (∀ B ∈ Bs, Mat.SquareWF B) →
    (List.zip (0 :: (innerBounds 0 Bs ++ [(blockDiag Bs).length]).dropLast)
        (innerBounds 0 Bs ++ [(blockDiag Bs).length])).map
      (fun ab => Mat.sub (blockDiag Bs) ab.1 ab.2) = Bs := by
  intro Bs
  induction Bs with
  | nil => intro h; cases h rfl
  | cons B rest ih =>
    intro _ hsq
    cases rest with
    | nil =>
      simp only [innerBounds, List.nil_append, List.dropLast_single]
      rw [show List.zip [0] [(blockDiag [B]).length]
          = [(0, (blockDiag [B]).length)] from rfl]
      rw [List.map_singleton]
      have hn : (blockDiag [B]).length = B.length := by
        rw [blockDiag_length]
        simp
      rw [hn]
      rw [sub_blockDiag_head B [] (hsq B (List.mem_cons_self _ _))]
    | cons B2 rest2 =>
      have hBsq : Mat.SquareWF B := hsq B (List.mem_cons_self _ _)
      have hn : (blockDiag (B :: B2 :: rest2)).length
          = B.length + (blockDiag (B2 :: rest2)).length := by
        rw [blockDiag_length, blockDiag_length]
        simp
      have hshift : innerBounds B.length (B2 :: rest2)
          = (innerBounds 0 (B2 :: rest2)).map (B.length + ·) :=
        innerBounds_shift (B2 :: rest2) B.length 0
      have hidxs : innerBounds 0 (B :: B2 :: rest2)
            ++ [(blockDiag (B :: B2 :: rest2)).length]
          = B.length :: (innerBounds 0 (B2 :: rest2)
              ++ [(blockDiag (B2 :: rest2)).length]).map (B.length + ·) := by
        rw [show innerBounds 0 (B :: B2 :: rest2)
            = (0 + B.length) :: innerBounds (0 + B.length) (B2 :: rest2)
          from rfl]
        rw [Nat.zero_add, hshift, hn, List.map_append, List.map_singleton,
          List.cons_append]
      rw [hidxs]
      have hne2 : (innerBounds 0 (B2 :: rest2)
          ++ [(blockDiag (B2 :: rest2)).length]).map (B.length + ·) ≠ [] := by
        simp
      rw [show ((B.length :: (innerBounds 0 (B2 :: rest2)
            ++ [(blockDiag (B2 :: rest2)).length]).map
              (B.length + ·))).dropLast
          = B.length :: ((innerBounds 0 (B2 :: rest2)
            ++ [(blockDiag (B2 :: rest2)).length]).map
              (B.length + ·)).dropLast from
        List.dropLast_cons_of_ne_nil hne2]
      rw [← List.map_dropLast]
      rw [show (0 : Nat) :: B.length :: ((innerBounds 0 (B2 :: rest2)
            ++ [(blockDiag (B2 :: rest2)).length]).dropLast).map
              (B.length + ·)
          = 0 :: ((0 : Nat) :: (innerBounds 0 (B2 :: rest2)
            ++ [(blockDiag (B2 :: rest2)).length]).dropLast).map
              (B.length + ·) from by
        rw [List.map_cons, Nat.add_zero]]
      rw [List.zip_cons_cons, List.zip_map, List.map_cons]
      rw [sub_blockDiag_head B (B2 :: rest2) hBsq]
      congr 1
      rw [List.map_map]
      have hcongr : ∀ p ∈ List.zip
          ((0 : Nat) :: (innerBounds 0 (B2 :: rest2)
            ++ [(blockDiag (B2 :: rest2)).length]).dropLast)
          (innerBounds 0 (B2 :: rest2)
            ++ [(blockDiag (B2 :: rest2)).length]),
          ((fun ab => Mat.sub (blockDiag (B :: B2 :: rest2)) ab.1 ab.2)
            ∘ Prod.map (B.length + ·) (B.length + ·)) p
          = Mat.sub (blockDiag (B2 :: rest2)) p.1 p.2 := by
        intro p _
        show Mat.sub (blockDiag (B :: B2 :: rest2))
          (B.length + p.1) (B.length + p.2) = _
        exact sub_blockDiag_shift B (B2 :: rest2) p.1 p.2
      rw [List.map_congr_left hcongr]
      exact ih (by simp) (fun B' hB' => hsq B' (List.mem_cons_of_mem _ hB'))

/-- C5 (amended): splitting the block-diagonal concatenation of blocks
`B₁,...,Bₖ` (exact zeros off the blocks) returns exactly `[B₁,...,Bₖ]`
in order, provided each block is itself unsplittable
(`split_by_diag_blocks Bᵢ = [Bᵢ]`); moreover if the concatenation is
symmetric then so is each (square) returned block. -/
theorem C5_split_blockdiag_idempotent_blocks {α : Type} [Zero α]
    [DecidableEq α] (Bs : List (Mat α)) (hne : Bs ≠ [])
    (hwf : ∀ B ∈ Bs, Mat.SquareWF B ∧ 1 ≤ B.length
      ∧ split_by_diag_blocks B = .ok [B]) :
    split_by_diag_blocks (blockDiag Bs) = .ok Bs
    ∧ ((∀ i j, Mat.entry (blockDiag Bs) i j = Mat.entry (blockDiag Bs) j i) →
       ∀ B ∈ Bs, ∀ i j, i < B.length → j < B.length →
         Mat.entry B i j = Mat.entry B j i) := by
  constructor
  · have hsq : ∀ B ∈ Bs, Mat.SquareWF B := fun B hB => (hwf B hB).1
    have hcols := blockDiag_cols Bs
      (fun B hB => ⟨(hwf B hB).1, (hwf B hB).2.1⟩)
    have hgl := blockDiag_goodLayout Bs hsq
    have hrun := runBlocks (blockDiag Bs) (blockDiag Bs).length Bs 0 hne
      (fun B hB => ⟨(hwf B hB).2.1, split_self_aux_nil B (hwf B hB).2.2⟩)
      hgl (blockDiag Bs).length [] (by omega)
    rw [split_by_diag_blocks, get_diag_block_idxs, if_pos hcols.symm]
    simp only [bind, Except.bind, pure, Except.pure]
    rw [hrun]
    simp only [List.nil_append]
    rw [zipSub_blocks Bs hne hsq]
  · intro hsymm B hB i j hi hj
    obtain ⟨o, ho⟩ := goodLayout_block_entries (blockDiag Bs)
      (blockDiag Bs).length Bs 0
      (blockDiag_goodLayout Bs (fun B' hB' => (hwf B' hB').1)) B hB
    rw [← ho i j hi hj, ← ho j i hj hi]
    exact hsymm (o + i) (o + j)

theorem C5_split_blockdiag_idempotent_blocks_witness :
    ([[[1, 2], [2, 1]], [[5]]] : List (Mat ℚ)) ≠ []
    ∧ (∀ B ∈ ([[[1, 2], [2, 1]], [[5]]] : List (Mat ℚ)),
        Mat.SquareWF B ∧ 1 ≤ B.length ∧ split_by_diag_blocks B = .ok [B])
    ∧ split_by_diag_blocks (blockDiag ([[[1, 2], [2, 1]], [[5]]] : List (Mat ℚ)))
        = .ok [[[1, 2], [2, 1]], [[5]]] :=
  ⟨by decide, by decide,
    (C5_split_blockdiag_idempotent_blocks [[[1, 2], [2, 1]], [[5]]]
      (by decide) (by decide)).1⟩

/-- C5 counterexample to the claim as stated: the concatenation of the
single block `B₁ = [[0,0],[0,0]]` (trivially block-diagonal, with exact
zeros off the blocks) does not split back into `[B₁]`: the splitter
returns the two finer `1×1` zero blocks.  The claim holds only when every
`Bᵢ` is itself unsplittable. -/
theorem C5_counterexample_zero_block_splits_finer :
    blockDiag ([[[0, 0], [0, 0]]] : List (Mat ℚ)) = [[0, 0], [0, 0]]
    ∧ split_by_diag_blocks (blockDiag ([[[0, 0], [0, 0]]] : List (Mat ℚ)))
        = .ok [[[0]], [[0]]]
    ∧ split_by_diag_blocks (blockDiag ([[[0, 0], [0, 0]]] : List (Mat ℚ)))
        ≠ .ok [[[0, 0], [0, 0]]] := by
  refine ⟨by decide, by decide, by decide⟩
